import Mathlib

/-!
# Verification of the BusTub buffer-pool core

A shallow embedding of the three source files of the repository:

* `src/buffer/lru_k_replacer.cpp` — the LRU-K replacement policy
* `src/buffer/buffer_pool_manager.cpp` — the buffer pool manager
* `src/primer/trie.cpp` — the copy-on-write trie

Pure functions of the source become Lean functions; stateful classes become
explicit state records with one Lean function per C++ member function; code
that can throw an exception or hit undefined behaviour (a `throw`, an
assertion, a null-pointer dereference, an out-of-range read) returns
`Option`/`Except`, with `none`/`error` marking the fault.

`std::unordered_map` and `std::map` members are modelled as association
lists: lookup finds the first matching key, assignment replaces in place or
appends a fresh entry at the end, and iteration order is list order (for the
unordered maps this fixes one concrete iteration order, namely insertion
order; the C++ standard leaves it unspecified).
-/

set_option linter.unusedVariables false
set_option linter.unusedSectionVars false

namespace BusTub

/-! ## Association-list primitives -/

section AList

variable {κ : Type} {α : Type} [DecidableEq κ]

/-- `m.find(k)`: first entry with key `k`. -/
def alookup : List (κ × α) → κ → Option α
  | [], _ => none
  | (k0, v) :: rest, k => if k0 = k then some v else alookup rest k

/-- `m.erase(k)`: drop the first entry with key `k` (no-op when absent). -/
def aerase : List (κ × α) → κ → List (κ × α)
  | [], _ => []
  | (k0, v) :: rest, k => if k0 = k then rest else (k0, v) :: aerase rest k

/-- `m[k] = v` / `insert_or_assign`: replace the first entry with key `k` in
place, or append a fresh entry at the end. -/
def aassign : List (κ × α) → κ → α → List (κ × α)
  | [], k, v => [(k, v)]
  | (k0, v0) :: rest, k, v =>
      if k0 = k then (k, v) :: rest else (k0, v0) :: aassign rest k v

def akeys (m : List (κ × α)) : List κ := m.map Prod.fst

def avalues (m : List (κ × α)) : List α := m.map Prod.snd

theorem akeys_cons (k0 : κ) (v : α) (rest : List (κ × α)) :
    akeys ((k0, v) :: rest) = k0 :: akeys rest := rfl

theorem alookup_eq_none_iff (m : List (κ × α)) (k : κ) :
    alookup m k = none ↔ k ∉ akeys m := by
  induction m with
  | nil => simp [alookup, akeys]
  | cons e rest ih =>
    obtain ⟨k0, v⟩ := e
    rw [akeys_cons]
    by_cases h : k0 = k
    · subst h
      simp [alookup]
    · simp only [alookup, if_neg h, List.mem_cons, ih]
      constructor
      · rintro hnk (he | hm)
        · exact h he.symm
        · exact hnk hm
      · intro hx hm
        exact hx (Or.inr hm)

theorem alookup_mem {m : List (κ × α)} {k : κ} {v : α}
    (h : alookup m k = some v) : (k, v) ∈ m := by
  induction m with
  | nil => simp [alookup] at h
  | cons e rest ih =>
    obtain ⟨k0, v0⟩ := e
    by_cases hk : k0 = k
    · subst hk
      simp [alookup] at h
      simp [h]
    · simp [alookup, hk] at h
      simp [ih h]

theorem mem_alookup {m : List (κ × α)} {k : κ} {v : α}
    (hnd : (akeys m).Nodup) (h : (k, v) ∈ m) : alookup m k = some v := by
  induction m with
  | nil => simp at h
  | cons e rest ih =>
    obtain ⟨k0, v0⟩ := e
    rw [akeys_cons] at hnd
    have hk0 : k0 ∉ akeys rest := (List.nodup_cons.mp hnd).1
    have hnd2 : (akeys rest).Nodup := (List.nodup_cons.mp hnd).2
    rcases List.mem_cons.mp h with h1 | h1
    · injection h1 with h1a h1b
      subst h1a
      subst h1b
      simp [alookup]
    · by_cases hk : k0 = k
      · subst hk
        exact absurd (by simpa [akeys] using List.mem_map_of_mem Prod.fst h1) hk0
      · simp only [alookup, if_neg hk]
        exact ih hnd2 h1

theorem aassign_of_absent {m : List (κ × α)} {k : κ} (v : α)
    (h : alookup m k = none) : aassign m k v = m ++ [(k, v)] := by
  induction m with
  | nil => simp [aassign]
  | cons e rest ih =>
    obtain ⟨k0, v0⟩ := e
    by_cases hk : k0 = k
    · simp [alookup, hk] at h
    · simp [alookup, hk] at h
      simp [aassign, hk, ih h]

theorem aerase_of_absent {m : List (κ × α)} {k : κ}
    (h : alookup m k = none) : aerase m k = m := by
  induction m with
  | nil => simp [aerase]
  | cons e rest ih =>
    obtain ⟨k0, v0⟩ := e
    by_cases hk : k0 = k
    · simp [alookup, hk] at h
    · simp [alookup, hk] at h
      simp [aerase, hk, ih h]

/-- Under distinct keys, erasing a present key drops exactly its entry
(up to permutation). -/
theorem aerase_perm {m : List (κ × α)} {k : κ} {v : α}
    (hnd : (akeys m).Nodup) (h : (k, v) ∈ m) :
    m.Perm ((k, v) :: aerase m k) := by
  induction m with
  | nil => simp at h
  | cons e rest ih =>
    obtain ⟨k0, v0⟩ := e
    rw [akeys_cons] at hnd
    have hk0 : k0 ∉ akeys rest := (List.nodup_cons.mp hnd).1
    have hnd2 : (akeys rest).Nodup := (List.nodup_cons.mp hnd).2
    rcases List.mem_cons.mp h with h1 | h1
    · injection h1 with h1a h1b
      subst h1a
      subst h1b
      simp [aerase]
    · have hk : k0 ≠ k := by
        intro he
        subst he
        exact hk0 (by simpa [akeys] using List.mem_map_of_mem Prod.fst h1)
      simp only [aerase, if_neg hk]
      have h2 : ((k0, v0) :: rest).Perm ((k0, v0) :: (k, v) :: aerase rest k) :=
        (ih hnd2 h1).cons _
      exact h2.trans (List.Perm.swap _ _ _)

theorem aerase_sublist (m : List (κ × α)) (k : κ) : (aerase m k).Sublist m := by
  induction m with
  | nil => simp [aerase]
  | cons e rest ih =>
    obtain ⟨k0, v0⟩ := e
    by_cases hk : k0 = k
    · simp [aerase, hk]
    · simp only [aerase, if_neg hk]
      exact ih.cons₂ _

theorem mem_aassign {m : List (κ × α)} {k : κ} {v : α} {e : κ × α}
    (h : e ∈ aassign m k v) : e ∈ m ∨ e = (k, v) := by
  induction m with
  | nil => simp [aassign] at h; simp [h]
  | cons e0 rest ih =>
    obtain ⟨k0, v0⟩ := e0
    by_cases hk : k0 = k
    · simp [aassign, hk] at h
      rcases h with h | h
      · simp [h]
      · simp [h]
    · simp [aassign, hk] at h
      rcases h with h | h
      · simp [h]
      · rcases ih h with h2 | h2
        · simp [h2]
        · simp [h2]

theorem akeys_aassign_subset {m : List (κ × α)} {k : κ} {v : α} {k1 : κ}
    (h : k1 ∈ akeys (aassign m k v)) : k1 ∈ akeys m ∨ k1 = k := by
  simp only [akeys, List.mem_map] at h
  obtain ⟨e, he, hk1⟩ := h
  rcases mem_aassign he with h2 | h2
  · exact Or.inl (by simpa [akeys, ← hk1] using List.mem_map_of_mem Prod.fst h2)
  · subst h2
    simp at hk1
    simp [hk1]

theorem alookup_aassign_self (m : List (κ × α)) (k : κ) (v : α) :
    alookup (aassign m k v) k = some v := by
  induction m with
  | nil => simp [aassign, alookup]
  | cons e rest ih =>
    obtain ⟨k0, v0⟩ := e
    by_cases hk : k0 = k
    · simp [aassign, hk, alookup]
    · simp [aassign, hk, alookup, ih]

theorem alookup_aassign_ne (m : List (κ × α)) {k k1 : κ} (v : α) (h : k ≠ k1) :
    alookup (aassign m k v) k1 = alookup m k1 := by
  induction m with
  | nil => simp [aassign, alookup, h]
  | cons e rest ih =>
    obtain ⟨k0, v0⟩ := e
    by_cases hk : k0 = k
    · subst hk
      simp [aassign, alookup, h]
    · simp [aassign, hk, alookup, ih]

theorem alookup_aerase_ne (m : List (κ × α)) {k k1 : κ} (h : k ≠ k1) :
    alookup (aerase m k) k1 = alookup m k1 := by
  induction m with
  | nil => simp [aerase]
  | cons e rest ih =>
    obtain ⟨k0, v0⟩ := e
    by_cases hk : k0 = k
    · subst hk
      simp [aerase, alookup, h]
    · by_cases hk1 : k0 = k1
      · subst hk1
        simp [aerase, hk, alookup]
      · simp only [aerase, if_neg hk, alookup, if_neg hk1]
        exact ih

theorem length_aassign_absent {m : List (κ × α)} {k : κ} (v : α)
    (h : alookup m k = none) : (aassign m k v).length = m.length + 1 := by
  rw [aassign_of_absent v h]
  simp

theorem alookup_aerase_self {m : List (κ × α)} {k : κ}
    (hnd : (akeys m).Nodup) : alookup (aerase m k) k = none := by
  cases h : alookup m k with
  | none => rw [aerase_of_absent h]; exact h
  | some v =>
    have hp := aerase_perm hnd (alookup_mem h)
    have hkp : (akeys m).Perm (k :: akeys (aerase m k)) := by
      simpa [akeys] using hp.map Prod.fst
    have hnd2 : (k :: akeys (aerase m k)).Nodup := hkp.nodup_iff.mp hnd
    exact (alookup_eq_none_iff _ _).mpr (List.nodup_cons.mp hnd2).1

theorem akeys_nodup_aassign_absent {m : List (κ × α)} {k : κ} (v : α)
    (hnd : (akeys m).Nodup) (h : alookup m k = none) :
    (akeys (aassign m k v)).Nodup := by
  rw [aassign_of_absent v h]
  have hk : k ∉ akeys m := (alookup_eq_none_iff m k).mp h
  have he : akeys (m ++ [(k, v)]) = akeys m ++ [k] := by simp [akeys]
  rw [he]
  refine List.Nodup.append hnd (by simp) ?_
  intro a ha hb
  simp at hb
  subst hb
  exact hk ha

theorem akeys_aassign_present {m : List (κ × α)} {k : κ} {v0 : α} (v : α)
    (h : alookup m k = some v0) : akeys (aassign m k v) = akeys m := by
  induction m with
  | nil => simp [alookup] at h
  | cons e rest ih =>
    obtain ⟨k0, w⟩ := e
    by_cases hk : k0 = k
    · subst hk
      simp [aassign, akeys]
    · simp [alookup, hk] at h
      simp [aassign, hk, akeys] at ih ⊢
      exact ih h

theorem mem_avalues {m : List (κ × α)} {v : α} :
    v ∈ avalues m ↔ ∃ k, (k, v) ∈ m := by
  constructor
  · intro h
    obtain ⟨⟨k1, v1⟩, hm, hv⟩ := List.mem_map.mp h
    cases hv
    exact ⟨k1, hm⟩
  · rintro ⟨k1, hm⟩
    exact List.mem_map.mpr ⟨(k1, v), hm, rfl⟩

theorem mem_akeys {m : List (κ × α)} {k : κ} :
    k ∈ akeys m ↔ ∃ v, (k, v) ∈ m := by
  constructor
  · intro h
    obtain ⟨⟨k1, v1⟩, hm, hv⟩ := List.mem_map.mp h
    cases hv
    exact ⟨v1, hm⟩
  · rintro ⟨v1, hm⟩
    exact List.mem_map.mpr ⟨(k, v1), hm, rfl⟩

theorem akeys_aerase_sublist (m : List (κ × α)) (k : κ) :
    (akeys (aerase m k)).Sublist (akeys m) :=
  (aerase_sublist m k).map Prod.fst

theorem avalues_aerase_sublist (m : List (κ × α)) (k : κ) :
    (avalues (aerase m k)).Sublist (avalues m) :=
  (aerase_sublist m k).map Prod.snd

theorem avalues_aassign_absent {m : List (κ × α)} {k : κ} (v : α)
    (h : alookup m k = none) : avalues (aassign m k v) = avalues m ++ [v] := by
  rw [aassign_of_absent v h]
  simp [avalues]

end AList

/-! ## Small list-indexing helpers (frames array `pages_`) -/

theorem getD_set_self {α : Type} (l : List α) {i : Nat} (h : i < l.length)
    (a d : α) : (l.set i a).getD i d = a := by
  simp [List.getD, List.getElem?_set_self, h]

theorem getD_set_ne {α : Type} (l : List α) {i j : Nat} (h : i ≠ j)
    (a d : α) : (l.set i a).getD j d = l.getD j d := by
  simp [List.getD, List.getElem?_set_ne h]

/-! ## LRU-K replacer (`src/buffer/lru_k_replacer.cpp`)

Timestamps come from a strictly monotonic counter: `RecordAccess` stamps the
access with the replacer's `current_timestamp` and then advances the counter,
so every recorded timestamp is strictly below `current_timestamp` (the spec
allows "a monotonic counter"; the source reads `std::chrono::system_clock`,
which advances between calls).  `Evict` uses `current_timestamp` as the
fresh "now". -/

/-- `LONG_MAX` on the LP64 platforms the source targets: `2 ^ 63 - 1`. -/
def LONGMAX : Nat := 9223372036854775807

structure LRUKNode where
  fid : Nat
  is_evictable : Bool
  /-- Access timestamps, most recent first (`push_front`). -/
  history : List Nat
deriving DecidableEq, Repr

structure LRUKReplacer where
  /-- `node_store_`, keyed by frame id.  Fresh entries are appended at the
  end, so iteration order is insertion order (one concrete choice for the
  unspecified `std::unordered_map` order). -/
  node_store : List (Nat × LRUKNode)
  curr_size : Nat
  replacer_size : Nat
  k : Nat
  current_timestamp : Nat
deriving DecidableEq, Repr

/-- The constructor `LRUKReplacer(num_frames, k)`. -/
def LRUKReplacer.mk0 (num_frames k : Nat) : LRUKReplacer :=
  { node_store := [], curr_size := 0, replacer_size := num_frames, k := k,
    current_timestamp := 0 }

/-- The `BUSTUB_ASSERT` guard of `RecordAccess` (and `SetEvictable`,
`Remove`), exactly as written in the source:
`frame_id >= 0 || static_cast<size_t>(frame_id) <= replacer_size_`.
The cast of a 64-bit signed `frame_id` to `size_t` is modelled by
`emod 2 ^ 64`.  The guard returning `false` means the assertion aborts
("frame_id is invalid"). -/
def recordAccessCheck (frame_id : Int) (replacer_size : Nat) : Bool :=
  decide (0 ≤ frame_id) || decide ((frame_id % (2 ^ 64 : Int)).toNat ≤ replacer_size)

/-- `RecordAccess`.  The frame ids the buffer pool passes are the
non-negative array indices `0 ≤ fid`, on which the source's assertion
(`recordAccessCheck`) always passes, so the state transformer is total. -/
def LRUKReplacer.RecordAccess (s : LRUKReplacer) (frame_id : Nat) : LRUKReplacer :=
  let ts := s.current_timestamp
  match alookup s.node_store frame_id with
  | none =>
      { s with
        node_store := aassign s.node_store frame_id ⟨frame_id, false, [ts]⟩,
        current_timestamp := ts + 1 }
  | some node =>
      { s with
        node_store := aassign s.node_store frame_id { node with history := ts :: node.history },
        current_timestamp := ts + 1 }

/-- `SetEvictable`. -/
def LRUKReplacer.SetEvictable (s : LRUKReplacer) (frame_id : Nat)
    (set_evictable : Bool) : LRUKReplacer :=
  match alookup s.node_store frame_id with
  | none => s
  | some node =>
      if node.is_evictable && !set_evictable then
        { s with
          node_store := aassign s.node_store frame_id { node with is_evictable := false },
          curr_size := s.curr_size - 1 }
      else if !node.is_evictable && set_evictable then
        { s with
          node_store := aassign s.node_store frame_id { node with is_evictable := true },
          curr_size := s.curr_size + 1 }
      else s

/-- `Remove`.  `none` models the thrown `Exception("frame is non-evictable")`. -/
def LRUKReplacer.Remove (s : LRUKReplacer) (frame_id : Nat) : Option LRUKReplacer :=
  match alookup s.node_store frame_id with
  | none => some s
  | some node =>
      if node.is_evictable then
        some { s with node_store := aerase s.node_store frame_id,
                      curr_size := s.curr_size - 1 }
      else none

def LRUKReplacer.Size (s : LRUKReplacer) : Nat := s.curr_size

/-- `LRUKNode::GetKHistory(k)`: the `k`-th most recent access timestamp
(1-indexed walk of the history list); `none` when `k = 0` or the history is
shorter than `k`. -/
def getKHistory (k : Nat) (history : List Nat) : Option Nat :=
  match k with
  | 0 => none
  | k0 + 1 => history[k0]?

/-- The running state of `Evict`'s search loop: the `evict` flag,
`min_delta_ts`, `min_least_recent_ts` and the output parameter `*frame_id`. -/
structure EvictAcc where
  evict : Bool
  min_delta_ts : Nat
  min_least_recent_ts : Nat
  frame_id : Nat
deriving DecidableEq, Repr

/-- One iteration of `Evict`'s loop over `node_store_`.  `error` models a
thrown exception (`"k_history is null"`) or the undefined behaviour of
`history_.back()` on an empty list. -/
def evictStep (k current : Nat) (acc : EvictAcc) (e : Nat × LRUKNode) :
    Except Unit EvictAcc :=
  let node := e.2
  if node.is_evictable then
    if k ≤ node.history.length then
      match getKHistory k node.history with
      | none => Except.error ()
      | some least_recent_ts =>
        let delta_ts := current - least_recent_ts
        if acc.min_delta_ts < delta_ts then
          Except.ok { acc with min_delta_ts := delta_ts, frame_id := node.fid,
                               evict := true }
        else Except.ok acc
    else
      match node.history.getLast? with
      | none => Except.error ()
      | some least_recent_ts =>
        let acc1 : EvictAcc :=
          { acc with min_delta_ts := LONGMAX, evict := true, frame_id := node.fid }
        if least_recent_ts < acc1.min_least_recent_ts then
          Except.ok { acc1 with min_least_recent_ts := least_recent_ts,
                                frame_id := node.fid }
        else Except.ok acc1
  else Except.ok acc

def evictLoop (k current : Nat) (acc : EvictAcc) :
    List (Nat × LRUKNode) → Except Unit EvictAcc
  | [] => Except.ok acc
  | e :: rest =>
    match evictStep k current acc e with
    | Except.error u => Except.error u
    | Except.ok acc1 => evictLoop k current acc1 rest

/-- `Evict`.  `ok (some f, s)` means `true` with `*frame_id = f`;
`ok (none, s)` means `false`; `error` models a thrown exception. -/
def LRUKReplacer.Evict (s : LRUKReplacer) : Except Unit (Option Nat × LRUKReplacer) :=
  match evictLoop s.k s.current_timestamp ⟨false, 0, LONGMAX, 0⟩ s.node_store with
  | Except.error u => Except.error u
  | Except.ok acc =>
    if acc.evict then
      Except.ok (some acc.frame_id,
        { s with node_store := aerase s.node_store acc.frame_id,
                 curr_size := s.curr_size - 1 })
    else Except.ok (none, s)

/-- The backward k-distance of a node at time `current`, straight from the
spec and the source's branch structure: `none` is `+∞` (fewer than `k`
recorded accesses), otherwise `current` minus the `k`-th most recent access
timestamp. -/
def kDist (k current : Nat) (node : LRUKNode) : Option Nat :=
  if k ≤ node.history.length then (getKHistory k node.history).map (fun ts => current - ts)
  else none

/-- Comparison on backward k-distances, `none` playing `+∞`. -/
def distLE : Option Nat → Option Nat → Prop
  | _, none => True
  | none, some _ => False
  | some a, some b => a ≤ b

instance (a b : Option Nat) : Decidable (distLE a b) := by
  cases a <;> cases b <;> simp [distLE] <;> infer_instance

/-! ## Copy-on-write trie (`src/primer/trie.cpp`)

A runtime-typed payload (`TrieNodeWithValue<T>`) is modelled by `TVal`, a
sum over payload shapes, and `dynamic_cast<const TrieNodeWithValue<T> *>`
by a projection `TVal → Option α` that fails on the wrong shape.  A node's
`children_` map is an association list; `TrieNode::Clone()` preserves
children and value, so cloning is the identity here.

The source indexes the key with `key[i]` even when `i` is at or past
`key.length()` (the empty-key paths of `Get`, `Put` and `Remove` all read
`key[0]`).  For the NUL-terminated buffers bustub passes, that read yields
the terminator, so `keyAt` returns `'\x00'` out of range.  Operations that
can dereference a null pointer return `Option`, `none` marking the fault. -/

/-- Payloads a `TrieNodeWithValue<T>` can carry, with their runtime type. -/
inductive TVal where
  | vNat : Nat → TVal
  | vStr : List Char → TVal
deriving DecidableEq, Repr

/-- `dynamic_cast` to `TrieNodeWithValue<uint32_t>`. -/
def castNat : TVal → Option Nat
  | TVal.vNat n => some n
  | _ => none

/-- `dynamic_cast` to `TrieNodeWithValue<std::string>`. -/
def castStr : TVal → Option (List Char)
  | TVal.vStr s => some s
  | _ => none

inductive TrieNode where
  | mk : List (Char × TrieNode) → Option TVal → TrieNode

def TrieNode.children : TrieNode → List (Char × TrieNode)
  | TrieNode.mk c _ => c

def TrieNode.value : TrieNode → Option TVal
  | TrieNode.mk _ v => v

structure Trie where
  root : Option TrieNode

def nulChar : Char := Char.ofNat 0

/-- `key[i]` on a `std::string_view` over NUL-terminated storage. -/
def keyAt (key : List Char) (i : Nat) : Char := key.getD i nulChar

/-- `Trie::Get` walk: follow one child per code unit. -/
def walkGet : TrieNode → List Char → Option TrieNode
  | cursor, [] => some cursor
  | cursor, c :: rest =>
    match alookup cursor.children c with
    | none => none
    | some n => walkGet n rest

/-- `Trie::Get<T>`.  The outer `Option` marks the null-root dereference
(`cursor->children_` with `root_ == nullptr`); the inner `Option` is the
returned pointer (`none` = `nullptr`: missing node or failed downcast).
For the empty key the loop performs exactly one step on `key[0] = '\x00'`
and then casts that child. -/
def Trie.Get {α : Type} (t : Trie) (castTo : TVal → Option α) (key : List Char) :
    Option (Option α) :=
  match t.root with
  | none => none
  | some root =>
    let path := if key.isEmpty then [nulChar] else key
    some (match walkGet root path with
          | none => none
          | some node =>
            match node.value with
            | none => none
            | some v => castTo v)

/-- `Trie::Put` loop: walk the first `len - 1` code units, cloning existing
nodes and creating missing ones, then place a value node at `last`,
preserving an existing node's children and discarding its old value. -/
def putLoop (v : TVal) (last : Char) : TrieNode → List Char → TrieNode
  | cursor, [] =>
    (match alookup cursor.children last with
     | none => TrieNode.mk (aassign cursor.children last (TrieNode.mk [] (some v))) cursor.value
     | some n => TrieNode.mk (aassign cursor.children last (TrieNode.mk n.children (some v))) cursor.value)
  | cursor, c :: rest =>
    (match alookup cursor.children c with
     | none => TrieNode.mk (aassign cursor.children c (putLoop v last (TrieNode.mk [] none) rest)) cursor.value
     | some n => TrieNode.mk (aassign cursor.children c (putLoop v last n rest)) cursor.value)

/-- `Trie::Put<T>`.  The loop covers `key[0 .. len-2]`; the last code unit is
`key[len-1]`, which for the empty key is the out-of-range read
`key[0] = '\x00'` (and the loop then runs zero times). -/
def Trie.Put (t : Trie) (key : List Char) (v : TVal) : Trie :=
  let root := match t.root with
    | none => TrieNode.mk [] none
    | some r => r
  ⟨some (putLoop v (keyAt key (key.length - 1)) root (key.take (key.length - 1)))⟩

/-- Outcome of `Trie::Remove`'s walk: `unchanged` is the early
`return Trie(root_)` on a missing child inside the loop; `fault` is the
null-pointer dereference `cursor->children_[last_char]->...` when the
terminal child is missing (`operator[]` default-inserts a null pointer). -/
inductive RemRes where
  | unchanged : RemRes
  | fault : RemRes
  | node : TrieNode → RemRes

def removeLoop (last : Char) : TrieNode → List Char → RemRes
  | cursor, [] =>
    (match alookup cursor.children last with
     | none => RemRes.fault
     | some term =>
       if term.children.isEmpty then
         RemRes.node (TrieNode.mk (aerase cursor.children last) cursor.value)
       else
         RemRes.node (TrieNode.mk (aassign cursor.children last (TrieNode.mk term.children none)) cursor.value))
  | cursor, c :: rest =>
    (match alookup cursor.children c with
     | none => RemRes.unchanged
     | some n =>
       match removeLoop last n rest with
       | RemRes.unchanged => RemRes.unchanged
       | RemRes.fault => RemRes.fault
       | RemRes.node n1 => RemRes.node (TrieNode.mk (aassign cursor.children c n1) cursor.value))

/-- `Trie::Remove`.  `none` marks a fault: the unconditional
`root_->Clone()` on a null root, or the terminal null-child dereference.
For the empty key the loop takes exactly one step on `key[0] = '\x00'`
before the terminal handling, again with `last = '\x00'`. -/
def Trie.Remove (t : Trie) (key : List Char) : Option Trie :=
  match t.root with
  | none => none
  | some root =>
    let key1 := if key.isEmpty then [nulChar] else key.take (key.length - 1)
    match removeLoop (keyAt key (key.length - 1)) root key1 with
    | RemRes.unchanged => some t
    | RemRes.fault => none
    | RemRes.node r => some ⟨some r⟩

/-- A key is present when the `Get` walk reaches a node (the spec's
"traversing k's code units from the root reaches a node"). -/
def Trie.Reaches (t : Trie) (key : List Char) : Bool :=
  match t.root with
  | none => false
  | some root => (walkGet root key).isSome

/-! ## Buffer pool manager (`src/buffer/buffer_pool_manager.cpp`)

The single pool-wide mutex serialises every public operation, so the
embedding is the sequential state transformer each operation performs while
holding the latch.  The consumed collaborators are part of the state: the
disk manager is a page-id-indexed store of page contents plus a trace of
`ReadPage`/`WritePage` calls, and the page allocator is the pool's own
monotonic `next_page_id_` counter (`DeallocatePage` ignores its argument).
Page contents are opaque words (`Nat`); `ResetMemory` zeroes them.

Field defaults of the `Page` class (its header is not under `src/`) are
modelled from the spec's data model: a fresh frame holds no page
(`page_id = INVALID`), pin count 0, clean, zeroed memory. -/

def INVALID_PAGE_ID : Int := -1

structure Page where
  page_id : Int
  pin_count : Nat
  is_dirty : Bool
  data : Nat
deriving DecidableEq, Repr

def defaultPage : Page :=
  { page_id := INVALID_PAGE_ID, pin_count := 0, is_dirty := false, data := 0 }

/-- One disk-manager call, for the I/O trace (most recent first). -/
inductive IOEvent where
  | readPage : Int → IOEvent
  | writePage : Int → Nat → IOEvent
deriving DecidableEq, Repr

structure BufferPoolManager where
  pool_size : Nat
  /-- `pages_`, indexed by frame id. -/
  pages : List Page
  /-- `page_table_` : page id → frame id. -/
  page_table : List (Int × Nat)
  free_list : List Nat
  replacer : LRUKReplacer
  next_page_id : Int
  /-- Disk-manager contents, page id → page data. -/
  disk : List (Int × Nat)
  /-- Trace of disk-manager calls, most recent first. -/
  io : List IOEvent
deriving DecidableEq, Repr

/-- The constructor: every frame in the free list, empty page table. -/
def BufferPoolManager.mk0 (pool_size replacer_k : Nat) : BufferPoolManager :=
  { pool_size := pool_size,
    pages := List.replicate pool_size defaultPage,
    page_table := [],
    free_list := List.range pool_size,
    replacer := LRUKReplacer.mk0 pool_size replacer_k,
    next_page_id := 0,
    disk := [],
    io := [] }

def BufferPoolManager.getPage (s : BufferPoolManager) (f : Nat) : Page :=
  s.pages.getD f defaultPage

/-- `PinPage(frame_id)`: tell the replacer the frame is no longer a
candidate and record an access. -/
def BufferPoolManager.PinPage (s : BufferPoolManager) (frame_id : Nat) :
    BufferPoolManager :=
  { s with replacer := (s.replacer.SetEvictable frame_id false).RecordAccess frame_id }

/-- Outcome of `FindAvailableFrame`: a fault propagated from the replacer,
no frame available (`false`), or a frame id plus the updated pool. -/
inductive FAFResult where
  | fault : FAFResult
  | missing : FAFResult
  | found : Nat → BufferPoolManager → FAFResult

/-- `FindAvailableFrame`: pop the free list, else evict; a dirty victim is
written back and its old page id erased from the page table. -/
def BufferPoolManager.FindAvailableFrame (s : BufferPoolManager) : FAFResult :=
  match s.free_list with
  | f :: rest => FAFResult.found f { s with free_list := rest }
  | [] =>
    match s.replacer.Evict with
    | Except.error _ => FAFResult.fault
    | Except.ok (none, _) => FAFResult.missing
    | Except.ok (some f, r1) =>
      let s1 := { s with replacer := r1 }
      let page := s1.getPage f
      let s2 :=
        if page.is_dirty then
          { s1 with disk := aassign s1.disk page.page_id page.data,
                    io := IOEvent.writePage page.page_id page.data :: s1.io,
                    pages := s1.pages.set f { page with is_dirty := false } }
        else s1
      FAFResult.found f { s2 with page_table := aerase s2.page_table page.page_id }

/-- `NewPage`.  `some (some (pid, f), s)` returns the fresh page id and the
frame holding it; `some (none, s)` is the `nullptr` return; `none` a fault.
The source sets `page_id_`, zeroes the memory and sets `pin_count_ = 1` but
never touches `is_dirty_`. -/
def BufferPoolManager.NewPage (s : BufferPoolManager) :
    Option (Option (Int × Nat) × BufferPoolManager) :=
  match s.FindAvailableFrame with
  | FAFResult.fault => none
  | FAFResult.missing => some (none, s)
  | FAFResult.found f s1 =>
    let pid := s1.next_page_id
    let page := s1.getPage f
    let s2 := { s1 with
      next_page_id := s1.next_page_id + 1,
      pages := s1.pages.set f { page with page_id := pid, data := 0, pin_count := 1 } }
    let s3 := s2.PinPage f
    some (some (pid, f), { s3 with page_table := aassign s3.page_table pid f })

/-- `FetchPage`.  Resident: pin count incremented, frame pinned in the
replacer, nothing else touched.  Otherwise a frame is obtained, the page is
read from disk into it, and it is installed; `is_dirty_` is never touched. -/
def BufferPoolManager.FetchPage (s : BufferPoolManager) (page_id : Int) :
    Option (Option Nat × BufferPoolManager) :=
  match alookup s.page_table page_id with
  | some f =>
    let page := s.getPage f
    let s1 := { s with pages := s.pages.set f { page with pin_count := page.pin_count + 1 } }
    some (some f, s1.PinPage f)
  | none =>
    match s.FindAvailableFrame with
    | FAFResult.fault => none
    | FAFResult.missing => some (none, s)
    | FAFResult.found f s1 =>
      let page := s1.getPage f
      let s2 := { s1 with
        io := IOEvent.readPage page_id :: s1.io,
        pages := s1.pages.set f { page with page_id := page_id, pin_count := 1,
                                            data := (alookup s1.disk page_id).getD 0 } }
      let s3 := { s2 with page_table := aassign s2.page_table page_id f }
      some (some f, s3.PinPage f)

/-- `UnpinPage`. -/
def BufferPoolManager.UnpinPage (s : BufferPoolManager) (page_id : Int)
    (is_dirty : Bool) : Bool × BufferPoolManager :=
  match alookup s.page_table page_id with
  | none => (false, s)
  | some f =>
    let page := s.getPage f
    if page.pin_count = 0 then (false, s)
    else
      let pc := page.pin_count - 1
      let r1 := if pc = 0 then s.replacer.SetEvictable f true else s.replacer
      (true, { s with
        pages := s.pages.set f { page with pin_count := pc,
                                           is_dirty := page.is_dirty || is_dirty },
        replacer := r1 })

/-- `FlushPage`. -/
def BufferPoolManager.FlushPage (s : BufferPoolManager) (page_id : Int) :
    Bool × BufferPoolManager :=
  if page_id = INVALID_PAGE_ID then (false, s)
  else
    match alookup s.page_table page_id with
    | none => (false, s)
    | some f =>
      let page := s.getPage f
      (true, { s with disk := aassign s.disk page_id page.data,
                      io := IOEvent.writePage page_id page.data :: s.io,
                      pages := s.pages.set f { page with is_dirty := false } })

def flushKeys (s : BufferPoolManager) : List Int → BufferPoolManager
  | [] => s
  | pid :: rest => flushKeys (s.FlushPage pid).2 rest

/-- `FlushAllPages`: flush each page-table entry in iteration order.
(The recursive `latch_` acquisition inside the loop is a locking issue the
sequential embedding erases; `FlushPage` leaves `page_table_` unchanged, so
the iteration itself is well defined.) -/
def BufferPoolManager.FlushAllPages (s : BufferPoolManager) : BufferPoolManager :=
  flushKeys s (akeys s.page_table)

/-- `DeletePage`.  `none` propagates the replacer's non-evictable-frame
exception.  `DeallocatePage` is a no-op. -/
def BufferPoolManager.DeletePage (s : BufferPoolManager) (page_id : Int) :
    Option (Bool × BufferPoolManager) :=
  match alookup s.page_table page_id with
  | none => some (false, s)
  | some f =>
    let page := s.getPage f
    if 0 < page.pin_count then some (false, s)
    else
      let s1 := { s with page_table := aerase s.page_table page_id }
      match s1.replacer.Remove f with
      | none => none
      | some r1 =>
        some (true, { s1 with replacer := r1, free_list := f :: s1.free_list })

/-- A public buffer-pool operation, for reasoning about call sequences. -/
inductive BPOp where
  | newPage : BPOp
  | fetchPage : Int → BPOp
  | unpinPage : Int → Bool → BPOp
  | flushPage : Int → BPOp
  | flushAllPages : BPOp
  | deletePage : Int → BPOp
deriving DecidableEq, Repr

/-- The state after one completed public operation (`none` = fault). -/
def applyOp (s : BufferPoolManager) : BPOp → Option BufferPoolManager
  | BPOp.newPage => s.NewPage.map Prod.snd
  | BPOp.fetchPage pid => (s.FetchPage pid).map Prod.snd
  | BPOp.unpinPage pid d => some (s.UnpinPage pid d).2
  | BPOp.flushPage pid => some (s.FlushPage pid).2
  | BPOp.flushAllPages => some s.FlushAllPages
  | BPOp.deletePage pid => (s.DeletePage pid).map Prod.snd

def runOps (s : BufferPoolManager) : List BPOp → Option BufferPoolManager
  | [] => some s
  | op :: rest =>
    match applyOp s op with
    | none => none
    | some s1 => runOps s1 rest

/-- A `fetch_page` call is legal when it targets an already-allocated page
id, i.e. one the allocator has handed out before (`0 ≤ pid < next_page_id_`);
every other public operation is unconditionally legal. -/
def legalOp (s : BufferPoolManager) : BPOp → Bool
  | BPOp.fetchPage pid => decide (0 ≤ pid) && decide (pid < s.next_page_id)
  | _ => true

def legalOps (s : BufferPoolManager) : List BPOp → Bool
  | [] => true
  | op :: rest =>
    legalOp s op &&
      (match applyOp s op with
       | none => true
       | some s1 => legalOps s1 rest)

/-! ## Claim theorems -/

/-- A replacer state reached by recording accesses on frames 0, 1, 2, 0 in
that order (spec scenario 4, with `a, b, c = 0, 1, 2`) and making all three
frames evictable.  With `k = 2`, frame 0 has two accesses (finite distance)
while frames 1 and 2 have a single access each (+∞ distance); frame 1's
only access (timestamp 1) is older than frame 2's (timestamp 2). -/
def c1State : LRUKReplacer :=
  (((((((LRUKReplacer.mk0 4 2).RecordAccess 0).RecordAccess 1).RecordAccess 2).RecordAccess 0).SetEvictable 0 true).SetEvictable 1 true).SetEvictable 2 true

/-- C1.  The claim (and the source's own comment, tip 4: "the replacer
evicts the frame with the earliest overall timestamp") requires frame 1
here, whose oldest access is earliest among the +∞ frames.  But the loop
body assigns `*frame_id = node->fid_` unconditionally before the
`least_recent_ts < min_least_recent_ts` comparison (the assignment inside
that `if` is identical and therefore dead), so the last +∞ frame in
iteration order — frame 2 — is returned instead. -/
theorem c1_infinite_tiebreak_ignores_oldest_access :
    (c1State.Evict.toOption = some (some 2,
      { c1State with node_store := aerase c1State.node_store 2,
                     curr_size := 2 })) ∧
    ((alookup c1State.node_store 1).map
        (fun n => (n.is_evictable, n.history.length, n.history.getLast?)) =
      some (true, 1, some 1)) ∧
    ((alookup c1State.node_store 2).map
        (fun n => (n.is_evictable, n.history.length, n.history.getLast?)) =
      some (true, 1, some 2)) ∧
    c1State.k = 2 := by
  decide

/-- C3.  Reachable failing run for the dirty flag: on a pool of one frame,
`new_page` → `unpin(dirty = true)` → `delete_page` puts frame 0 back on the
free list with its dirty bit still set (`DeletePage` never clears it), and
the subsequent `new_page` hands the frame out without clearing it either —
the new page starts life dirty, though its pin count is 1 and its memory is
zeroed.  A second run shows the same for `fetch_page` installing a
non-resident page.  The claim (and the spec's "clear dirty") requires
`is_dirty = false` in both cases. -/
theorem c3_new_and_fetch_leave_dirty_set :
    ((runOps (BufferPoolManager.mk0 1 2)
        [BPOp.newPage, BPOp.unpinPage 0 true, BPOp.deletePage 0, BPOp.newPage]).map
      (fun s => ((s.getPage 0).is_dirty, (s.getPage 0).pin_count, (s.getPage 0).data)) =
      some (true, 1, 0)) ∧
    ((runOps (BufferPoolManager.mk0 1 2)
        [BPOp.newPage, BPOp.unpinPage 0 true, BPOp.deletePage 0, BPOp.fetchPage 0]).map
      (fun s => ((s.getPage 0).is_dirty, (s.getPage 0).pin_count)) =
      some (true, 1)) := by
  decide

/-- C4, counterexample.  Deleting a page that is not resident returns
`false` (first component), not `true` as the claim states; the pool state is
unchanged. -/
theorem c4_delete_nonresident_returns_false :
    (BufferPoolManager.mk0 2 2).DeletePage 5 =
      some (false, BufferPoolManager.mk0 2 2) := by
  decide

/-- C4, amended.  For every pool state and every page id absent from the
page table, `DeletePage` returns `false` (not `true`) and leaves the state
unchanged, without faulting. -/
theorem delete_nonresident_noop (s : BufferPoolManager) (page_id : Int)
    (h : alookup s.page_table page_id = none) :
    s.DeletePage page_id = some (false, s) := by
  simp [BufferPoolManager.DeletePage, h]

/-- Witness for `delete_nonresident_noop` at a concrete input. -/
theorem delete_nonresident_noop_witness :
    alookup (BufferPoolManager.mk0 3 2).page_table 7 = none ∧
    (BufferPoolManager.mk0 3 2).DeletePage 7 =
      some (false, BufferPoolManager.mk0 3 2) :=
  ⟨by decide, delete_nonresident_noop (BufferPoolManager.mk0 3 2) 7 (by decide)⟩

/-- C6.  The empty key does not target the root: all three operations read
`key[0]` — the NUL terminator — and address the root's `'\x00'` child.
(1) On a trie whose root is a value node carrying 5, `get("")` returns
absent instead of the root's value.  (2) `put("", 7)` on the empty trie
leaves the root a non-value node and stores 7 one level down, in a value
node at the root's NUL child.  (3) `remove("")` on that trie faults (it
dereferences the missing NUL child of the NUL child) instead of demoting
the root. -/
theorem c6_empty_key_does_not_target_root :
    ((Trie.mk (some (TrieNode.mk [] (some (TVal.vNat 5))))).Get castNat [] =
      some none) ∧
    (((Trie.mk none).Put [] (TVal.vNat 7)).root.map TrieNode.value = some none) ∧
    (((Trie.mk none).Put [] (TVal.vNat 7)).root.map
        (fun r => (alookup r.children nulChar).map TrieNode.value) =
      some (some (some (TVal.vNat 7)))) ∧
    ((((Trie.mk none).Put [] (TVal.vNat 7)).Remove []).isNone = true) := by
  decide

/-- C8.  Removing an absent key is not a no-op when the walk only fails at
the last code unit: on the trie holding just "ab", `remove("ac")` reaches
the node for "a" and then dereferences `children_['c']` — a null pointer
freshly default-inserted by `operator[]` — and crashes (`none` here), even
though "ac" is absent (the get-walk does not reach a node) while its proper
one-character head "a" is present.  On the empty trie (null root),
`remove` of any key crashes at the unconditional `root_->Clone()`. -/
theorem c8_remove_absent_key_faults :
    (Trie.Reaches ((Trie.mk none).Put ['a', 'b'] (TVal.vNat 1)) ['a', 'c'] = false) ∧
    (Trie.Reaches ((Trie.mk none).Put ['a', 'b'] (TVal.vNat 1)) ['a'] = true) ∧
    ((((Trie.mk none).Put ['a', 'b'] (TVal.vNat 1)).Remove ['a', 'c']).isNone = true) ∧
    (((Trie.mk none).Remove ['a', 'b']).isNone = true) := by
  decide

/-- C9.  The assertion guarding `RecordAccess` is
`frame_id >= 0 || static_cast<size_t>(frame_id) <= replacer_size_`: the
`||` makes the second disjunct irrelevant for every non-negative id, so the
guard accepts every `frame_id ≥ 0` — including `frame_id = pool_size` and
far beyond — and rejects only negative ids.  The claim requires rejection
of every id outside `[0, pool_size)`. -/
theorem c9_record_access_guard_accepts_out_of_range :
    (∀ fid : Nat, ∀ rsize : Nat, recordAccessCheck fid rsize = true) ∧
    recordAccessCheck 4 4 = true ∧
    recordAccessCheck 1000 4 = true ∧
    recordAccessCheck (-1) 4 = false := by
  refine ⟨?_, by decide, by decide, by decide⟩
  intro fid rsize
  simp [recordAccessCheck]

/-- Splitting a non-empty key the way `Put` and `Remove` do — the first
`len - 1` code units for the loop and `key[len - 1]` for the terminal
step — recovers the key. -/
theorem take_append_keyAt : ∀ {key : List Char}, key ≠ [] →
    key.take (key.length - 1) ++ [keyAt key (key.length - 1)] = key
  | [], h => absurd rfl h
  | [a], _ => rfl
  | a :: b :: t, _ => by
    have ih := take_append_keyAt (show b :: t ≠ [] by simp)
    have hk : keyAt (a :: b :: t) ((b :: t).length) = keyAt (b :: t) ((b :: t).length - 1) := by
      simp [keyAt]
    have hlen : (a :: b :: t).length - 1 = (b :: t).length := by simp
    rw [hlen, hk]
    have ht : (a :: b :: t).take (b :: t).length =
        a :: (b :: t).take ((b :: t).length - 1) := by
      simp [List.take_succ_cons]
    rw [ht, List.cons_append, ih]

/-- After `putLoop` placed the value at the end of `key1 ++ [last]`, the
`Get` walk along that very path lands on a value node carrying `v`. -/
theorem walkGet_putLoop (v : TVal) (last : Char) :
    ∀ (key1 : List Char) (cursor : TrieNode),
      (walkGet (putLoop v last cursor key1) (key1 ++ [last])).map TrieNode.value =
        some (some v)
  | [], TrieNode.mk children val => by
    cases halo : alookup children last with
    | none =>
      simp [putLoop, TrieNode.children, halo, walkGet, alookup_aassign_self, TrieNode.value]
    | some n =>
      obtain ⟨nc, nv⟩ := n
      simp [putLoop, TrieNode.children, halo, walkGet, alookup_aassign_self, TrieNode.value]
  | c :: rest, TrieNode.mk children val => by
    cases halo : alookup children c with
    | none =>
      have ih := walkGet_putLoop v last rest (TrieNode.mk [] none)
      simpa [putLoop, TrieNode.children, halo, walkGet, alookup_aassign_self] using ih
    | some n =>
      have ih := walkGet_putLoop v last rest n
      simpa [putLoop, TrieNode.children, halo, walkGet, alookup_aassign_self] using ih

/-- C7.  For every trie, every key and every value, `put` followed by `get`
at the same key (with the matching downcast) returns the value: no fault
(outer `some`), pointer to `n` (inner `some n`).  This holds for the empty
key as well, because `Put` and `Get` agree on treating it as the
one-code-unit path `'\x00'`. -/
theorem put_get_roundtrip (t : Trie) (key : List Char) (n : Nat) :
    (t.Put key (TVal.vNat n)).Get castNat key = some (some n) := by
  have hpath : (if key = [] then [nulChar] else key) =
      key.take (key.length - 1) ++ [keyAt key (key.length - 1)] := by
    by_cases hk : key = []
    · subst hk; rfl
    · rw [if_neg hk]
      exact (take_append_keyAt hk).symm
  obtain ⟨root⟩ := t
  cases root with
  | none =>
    obtain ⟨node1, hw, hv⟩ := Option.map_eq_some'.mp
      (walkGet_putLoop (TVal.vNat n) (keyAt key (key.length - 1))
        (key.take (key.length - 1)) (TrieNode.mk [] none))
    simp [Trie.Put, Trie.Get, hpath, hw, hv, castNat]
  | some r =>
    obtain ⟨node1, hw, hv⟩ := Option.map_eq_some'.mp
      (walkGet_putLoop (TVal.vNat n) (keyAt key (key.length - 1))
        (key.take (key.length - 1)) r)
    simp [Trie.Put, Trie.Get, hpath, hw, hv, castNat]

/-! ### Correctness of `Evict` (claim C2) -/

/-- Well-formedness of one tracked node: the map key is the node's stored
frame id, the history is non-empty (every tracked node was created with one
recorded access), and every recorded timestamp lies strictly below the
current counter value (the counter advances past each stamp it hands out). -/
def WFNode (current : Nat) (e : Nat × LRUKNode) : Prop :=
  e.1 = e.2.fid ∧ e.2.history ≠ [] ∧ ∀ ts ∈ e.2.history, ts < current

/-- Well-formedness of a replacer state: `k ≥ 1` (the constructor is called
with a positive k), the clock has not overflowed `LONG_MAX`, map keys are
distinct, and every tracked node is well formed. -/
def LRUKReplacer.WF (s : LRUKReplacer) : Prop :=
  1 ≤ s.k ∧ s.current_timestamp ≤ LONGMAX ∧
    (akeys s.node_store).Nodup ∧ ∀ e ∈ s.node_store, WFNode s.current_timestamp e

instance (s : LRUKReplacer) : Decidable s.WF := by
  unfold LRUKReplacer.WF WFNode
  infer_instance

def hasEvictable (store : List (Nat × LRUKNode)) : Bool :=
  store.any (fun e => e.2.is_evictable)

theorem kDist_of_short {k cur : Nat} {node : LRUKNode}
    (h : node.history.length < k) : kDist k cur node = none := by
  simp [kDist, Nat.not_le.mpr h]

theorem getKHistory_of_le {k : Nat} {hist : List Nat} (hk : 1 ≤ k)
    (hlen : k ≤ hist.length) : ∃ ts, getKHistory k hist = some ts ∧ ts ∈ hist := by
  cases k with
  | zero => omega
  | succ m =>
    have hm : m < hist.length := by omega
    exact ⟨hist[m], by simp [getKHistory, List.getElem?_eq_getElem hm], List.getElem_mem hm⟩

theorem distLE_none (x : Option Nat) : distLE x none := by
  cases x <;> simp [distLE]

theorem distLE_refl (x : Option Nat) : distLE x x := by
  cases x <;> simp [distLE]

theorem distLE_mono {x : Option Nat} {a b : Nat} (h : distLE x (some a))
    (hab : a ≤ b) : distLE x (some b) := by
  cases x with
  | none => simp [distLE] at h
  | some c =>
    simp [distLE] at h ⊢
    omega

/-- Invariant of `Evict`'s loop after processing the prefix `pre`: either
nothing evictable has been seen (the accumulator is untouched), or the
accumulator holds an evictable entry of `pre` whose backward k-distance
dominates every evictable entry of `pre`, with the accumulator's
`min_delta_ts` recording either the `LONG_MAX` sentinel of a +∞ frame or
the chosen frame's finite distance. -/
def AccInv (k cur : Nat) (pre : List (Nat × LRUKNode)) (acc : EvictAcc) : Prop :=
  (acc.evict = false ∧ acc.min_delta_ts = 0 ∧ ∀ e ∈ pre, e.2.is_evictable = false) ∨
  (acc.evict = true ∧ ∃ node, (acc.frame_id, node) ∈ pre ∧ node.is_evictable = true ∧
    (∀ e ∈ pre, e.2.is_evictable = true →
      distLE (kDist k cur e.2) (kDist k cur node)) ∧
    ((acc.min_delta_ts = LONGMAX ∧ node.history.length < k) ∨
      kDist k cur node = some acc.min_delta_ts))

theorem evictStep_inv {k cur : Nat} (hk : 1 ≤ k) (hcur : cur ≤ LONGMAX)
    {pre : List (Nat × LRUKNode)} {acc : EvictAcc} {e : Nat × LRUKNode}
    (hwf : WFNode cur e) (hinv : AccInv k cur pre acc) :
    ∃ acc1, evictStep k cur acc e = Except.ok acc1 ∧
      AccInv k cur (pre ++ [e]) acc1 := by
  obtain ⟨f, node⟩ := e
  obtain ⟨hfid, hne, hts⟩ := hwf
  simp only at hfid
  by_cases hev : node.is_evictable
  · by_cases hlen : k ≤ node.history.length
    · -- finite backward k-distance
      obtain ⟨ts, hget, htsmem⟩ := getKHistory_of_le hk hlen
      have hts_lt : ts < cur := hts ts htsmem
      have hkd : kDist k cur node = some (cur - ts) := by
        simp [kDist, hlen, hget]
      by_cases hcmp : acc.min_delta_ts < cur - ts
      · refine ⟨{ evict := true, min_delta_ts := cur - ts,
                  min_least_recent_ts := acc.min_least_recent_ts,
                  frame_id := node.fid },
          by simp [evictStep, hev, hlen, hget, hcmp],
          Or.inr ⟨rfl, node, ?_, hev, ?_, Or.inr ?_⟩⟩
        · simp [← hfid]
        · intro e0 he0 hev0
          rcases List.mem_append.mp he0 with he0 | he0
          · rcases hinv with ⟨_, _, hallf⟩ | ⟨_, node0, _, _, hmax, hcase⟩
            · exact absurd (hallf e0 he0) (by simp [hev0])
            · rcases hcase with ⟨hminL, hlen0⟩ | hkd0
              · exfalso
                have : cur - ts ≤ LONGMAX := by omega
                omega
              · have h1 := hmax e0 he0 hev0
                rw [hkd0] at h1
                rw [hkd]
                exact distLE_mono h1 (by omega)
          · simp at he0
            subst he0
            rw [hkd]
            exact distLE_refl _
        · simpa using hkd
      · refine ⟨acc, by simp [evictStep, hev, hlen, hget, hcmp], ?_⟩
        rcases hinv with ⟨hf0, hmin, hallf⟩ | ⟨ht, node0, hmem, hev0, hmax, hcase⟩
        · exfalso
          rw [hmin] at hcmp
          omega
        · refine Or.inr ⟨ht, node0, List.mem_append_left _ hmem, hev0, ?_, hcase⟩
          intro e0 he0 hev1
          rcases List.mem_append.mp he0 with he0 | he0
          · exact hmax e0 he0 hev1
          · simp at he0
            subst he0
            rw [hkd]
            rcases hcase with ⟨hminL, hlen0⟩ | hkd0
            · rw [kDist_of_short hlen0]
              exact distLE_none _
            · rw [hkd0]
              simp only [distLE]
              omega
    · -- +∞ backward k-distance
      have hlen2 : node.history.length < k := Nat.not_le.mp hlen
      cases hgl : node.history.getLast? with
      | none => exact absurd (List.getLast?_eq_none_iff.mp hgl) hne
      | some least =>
        have hmaxall : ∀ acc2 : EvictAcc, acc2.frame_id = node.fid → acc2.evict = true →
            acc2.min_delta_ts = LONGMAX →
            AccInv k cur (pre ++ [(f, node)]) acc2 := by
          intro acc2 h1 h2 h3
          refine Or.inr ⟨h2, node, ?_, hev, ?_, Or.inl ⟨h3, hlen2⟩⟩
          · simp [h1, ← hfid]
          · intro e0 he0 hev0
            rw [kDist_of_short hlen2]
            exact distLE_none _
        by_cases hleast : least < acc.min_least_recent_ts
        · exact ⟨{ evict := true, min_delta_ts := LONGMAX,
                   min_least_recent_ts := least, frame_id := node.fid },
            by simp [evictStep, hev, hlen, hgl, hleast], hmaxall _ rfl rfl rfl⟩
        · exact ⟨{ evict := true, min_delta_ts := LONGMAX,
                   min_least_recent_ts := acc.min_least_recent_ts, frame_id := node.fid },
            by simp [evictStep, hev, hlen, hgl, hleast], hmaxall _ rfl rfl rfl⟩
  · -- not evictable: the entry is skipped
    refine ⟨acc, by simp [evictStep, hev], ?_⟩
    rcases hinv with ⟨hf0, hmin, hallf⟩ | ⟨ht, node0, hmem, hev0, hmax, hcase⟩
    · refine Or.inl ⟨hf0, hmin, ?_⟩
      intro e0 he0
      rcases List.mem_append.mp he0 with he0 | he0
      · exact hallf e0 he0
      · simp at he0
        subst he0
        simpa using hev
    · refine Or.inr ⟨ht, node0, List.mem_append_left _ hmem, hev0, ?_, hcase⟩
      intro e0 he0 hev1
      rcases List.mem_append.mp he0 with he0 | he0
      · exact hmax e0 he0 hev1
      · simp at he0
        subst he0
        exact absurd hev1 (by simpa using hev)

theorem evictLoop_inv (k cur : Nat) (hk : 1 ≤ k) (hcur : cur ≤ LONGMAX) :
    ∀ (suf pre : List (Nat × LRUKNode)) (acc : EvictAcc),
      (∀ e ∈ suf, WFNode cur e) →
      AccInv k cur pre acc →
      ∃ acc1, evictLoop k cur acc suf = Except.ok acc1 ∧
        AccInv k cur (pre ++ suf) acc1
  | [], pre, acc, hwf, hinv => ⟨acc, rfl, by simpa using hinv⟩
  | e :: rest, pre, acc, hwf, hinv => by
    obtain ⟨acc1, hstep, hinv1⟩ :=
      evictStep_inv hk hcur (hwf e (by simp)) hinv
    obtain ⟨acc2, hloop, hinv2⟩ :=
      evictLoop_inv k cur hk hcur rest (pre ++ [e]) acc1
        (fun e0 he0 => hwf e0 (by simp [he0])) hinv1
    refine ⟨acc2, ?_, by simpa using hinv2⟩
    simp [evictLoop, hstep, hloop]

/-- C2.  On every well-formed replacer state: if some evictable frame
exists, `Evict` returns (no exception) an evictable tracked frame whose
backward k-distance — `+∞` when it has fewer than `k` recorded accesses,
otherwise current time minus the `k`-th most recent access timestamp — is
maximal among all evictable frames, and erases that frame's record, so it
becomes untracked, decrementing the evictable count; if no evictable frame
exists, it returns nothing and leaves the state unchanged. -/
theorem evict_chooses_max_distance (s : LRUKReplacer) (hwf : s.WF) :
    (hasEvictable s.node_store = true →
      ∃ f node s1, s.Evict = Except.ok (some f, s1) ∧
        (f, node) ∈ s.node_store ∧ node.is_evictable = true ∧
        (∀ e ∈ s.node_store, e.2.is_evictable = true →
          distLE (kDist s.k s.current_timestamp e.2)
                 (kDist s.k s.current_timestamp node)) ∧
        s1.node_store = aerase s.node_store f ∧
        alookup s1.node_store f = none ∧
        s1.curr_size = s.curr_size - 1) ∧
    (hasEvictable s.node_store = false →
      s.Evict = Except.ok (none, s)) := by
  obtain ⟨hk, hcur, hnd, hall⟩ := hwf
  obtain ⟨acc1, hloop, hinv⟩ :=
    evictLoop_inv s.k s.current_timestamp hk hcur s.node_store []
      ⟨false, 0, LONGMAX, 0⟩ hall (Or.inl ⟨rfl, rfl, by simp⟩)
  constructor
  · intro hhas
    rcases hinv with ⟨hf0, _, hallf⟩ | ⟨ht, node, hmem, hev, hmax, _⟩
    · exfalso
      obtain ⟨e0, he0, hev0⟩ := List.any_eq_true.mp hhas
      exact absurd (hallf e0 (by simpa using he0)) (by simp [hev0])
    · refine ⟨acc1.frame_id, node,
        { s with node_store := aerase s.node_store acc1.frame_id,
                 curr_size := s.curr_size - 1 }, ?_, by simpa using hmem, hev,
        by simpa using hmax, rfl, ?_, rfl⟩
      · simp [LRUKReplacer.Evict, hloop, ht]
      · exact alookup_aerase_self hnd
  · intro hno
    rcases hinv with ⟨hf0, _, _⟩ | ⟨ht, node, hmem, hev, _, _⟩
    · simp [LRUKReplacer.Evict, hloop, hf0]
    · exfalso
      have h2 : hasEvictable s.node_store = true :=
        List.any_eq_true.mpr ⟨(acc1.frame_id, node), by simpa using hmem, by simp [hev]⟩
      simp [h2] at hno

/-! ### The pool invariant (claims C5 and C10)

The invariant ties the four stores together: frames array of the right
size, a functional page table (distinct page ids, distinct frames, each
entry's frame really holding that page id, ids below the allocator
counter), a free list of in-range frames owning no page-table entry, a
replacer tracking only page-owning frames, and the counted equation
`|free_list| + |page_table| = pool_size`. -/

def ptOK (s : BufferPoolManager) : Prop :=
  ∀ e ∈ s.page_table, 0 ≤ e.1 ∧ e.1 < s.next_page_id ∧
    (s.pages.getD e.2 defaultPage).page_id = e.1

def BufferPoolManager.Inv (s : BufferPoolManager) : Prop :=
  s.pages.length = s.pool_size ∧
  0 ≤ s.next_page_id ∧
  (akeys s.page_table).Nodup ∧
  (avalues s.page_table).Nodup ∧
  ptOK s ∧
  s.free_list.Nodup ∧
  (∀ f ∈ s.free_list, f < s.pool_size ∧ f ∉ avalues s.page_table) ∧
  (∀ e ∈ s.replacer.node_store, e.1 = e.2.fid ∧ e.1 ∈ avalues s.page_table) ∧
  (akeys s.replacer.node_store).Nodup ∧
  s.free_list.length + s.page_table.length = s.pool_size

instance (s : BufferPoolManager) : Decidable s.Inv := by
  unfold BufferPoolManager.Inv ptOK
  infer_instance

/-- A page-table entry's frame is a real index into `pages_`: its slot
carries the non-negative page id, which the default (out-of-range) page
cannot. -/
theorem frame_lt_of_mem_pt {s : BufferPoolManager} {pid : Int} {f : Nat}
    (hlen : s.pages.length = s.pool_size)
    (hpt : ptOK s) (h : (pid, f) ∈ s.page_table) : f < s.pages.length := by
  obtain ⟨hpid0, _, hpg⟩ := hpt _ h
  by_contra hge
  push_neg at hge
  rw [List.getD_eq_default _ _ hge] at hpg
  simp only [defaultPage, INVALID_PAGE_ID] at hpg
  omega

/-- `aassign` with a value whose `fid` matches the key preserves the
coherence facts and key distinctness of a replacer store. -/
theorem store_aassign_facts {store : List (Nat × LRUKNode)} {f : Nat}
    {nd : LRUKNode} {P : Nat → Prop}
    (hco : ∀ e ∈ store, e.1 = e.2.fid ∧ P e.1)
    (hnd : (akeys store).Nodup)
    (hfid : nd.fid = f) (hf : P f) :
    (∀ e ∈ aassign store f nd, e.1 = e.2.fid ∧ P e.1) ∧
    (akeys (aassign store f nd)).Nodup := by
  constructor
  · intro e he
    rcases mem_aassign he with he | he
    · exact hco e he
    · subst he
      exact ⟨hfid.symm, hf⟩
  · cases h : alookup store f with
    | none => exact akeys_nodup_aassign_absent _ hnd h
    | some v => rw [akeys_aassign_present _ h]; exact hnd

theorem store_facts_setEvictable {r : LRUKReplacer} {f : Nat} (b : Bool)
    {P : Nat → Prop}
    (hco : ∀ e ∈ r.node_store, e.1 = e.2.fid ∧ P e.1)
    (hnd : (akeys r.node_store).Nodup) :
    (∀ e ∈ (r.SetEvictable f b).node_store, e.1 = e.2.fid ∧ P e.1) ∧
    (akeys (r.SetEvictable f b).node_store).Nodup := by
  unfold LRUKReplacer.SetEvictable
  cases h : alookup r.node_store f with
  | none => exact ⟨hco, hnd⟩
  | some node =>
    have hfid : node.fid = f := ((hco _ (alookup_mem h)).1).symm
    have hPf : P f := (hco _ (alookup_mem h)).2
    by_cases h1 : node.is_evictable = true <;> cases b <;>
      simp only [h1, Bool.not_false, Bool.not_true, Bool.and_self, Bool.and_false,
        Bool.and_true, Bool.false_and, Bool.true_and, if_true, if_false,
        Bool.false_eq_true, reduceIte] <;>
      first
        | exact ⟨hco, hnd⟩
        | exact store_aassign_facts hco hnd (by simp [hfid]) hPf

theorem store_facts_recordAccess {r : LRUKReplacer} {f : Nat} {P : Nat → Prop}
    (hco : ∀ e ∈ r.node_store, e.1 = e.2.fid ∧ P e.1)
    (hnd : (akeys r.node_store).Nodup) (hf : P f) :
    (∀ e ∈ (r.RecordAccess f).node_store, e.1 = e.2.fid ∧ P e.1) ∧
    (akeys (r.RecordAccess f).node_store).Nodup := by
  unfold LRUKReplacer.RecordAccess
  cases h : alookup r.node_store f with
  | none =>
    exact store_aassign_facts hco hnd rfl hf
  | some node =>
    have hfid : node.fid = f := ((hco _ (alookup_mem h)).1).symm
    exact store_aassign_facts hco hnd (by simp [hfid]) hf

/-- If `Evict`'s loop finishes with the `evict` flag set, the reported
frame id satisfies any property the (coherent) entries' keys satisfy. -/
theorem evictLoop_found {k cur : Nat} {P : Nat → Prop} :
    ∀ (suf : List (Nat × LRUKNode)) (acc acc1 : EvictAcc),
      (∀ e ∈ suf, e.1 = e.2.fid ∧ P e.1) →
      (acc.evict = true → P acc.frame_id) →
      evictLoop k cur acc suf = Except.ok acc1 →
      acc1.evict = true → P acc1.frame_id
  | [], acc, acc1, hsuf, hbase, hloop, hev => by
    simp only [evictLoop] at hloop
    injection hloop with hloop
    subst hloop
    exact hbase hev
  | e :: rest, acc, acc1, hsuf, hbase, hloop, hev => by
    have hPe : P e.2.fid := by
      have h2 := hsuf e (by simp)
      rw [← h2.1]
      exact h2.2
    unfold evictLoop at hloop
    cases hstep : evictStep k cur acc e with
    | error u => rw [hstep] at hloop; cases hloop
    | ok acc2 =>
      rw [hstep] at hloop
      refine evictLoop_found rest acc2 acc1
        (fun e0 he0 => hsuf e0 (by simp [he0])) ?_ hloop hev
      intro hev2
      unfold evictStep at hstep
      by_cases hev0 : e.2.is_evictable = true
      · rw [if_pos (by simp [hev0])] at hstep
        by_cases hlen : k ≤ e.2.history.length
        · rw [if_pos hlen] at hstep
          cases hget : getKHistory k e.2.history with
          | none => rw [hget] at hstep; cases hstep
          | some ts =>
            rw [hget] at hstep
            simp only at hstep
            by_cases hcmp : acc.min_delta_ts < cur - ts
            · rw [if_pos hcmp] at hstep
              injection hstep with hstep
              subst hstep
              exact hPe
            · rw [if_neg hcmp] at hstep
              injection hstep with hstep
              subst hstep
              exact hbase hev2
        · rw [if_neg hlen] at hstep
          cases hgl : e.2.history.getLast? with
          | none => rw [hgl] at hstep; cases hstep
          | some least =>
            rw [hgl] at hstep
            simp only at hstep
            by_cases hle : least < acc.min_least_recent_ts
            · rw [if_pos hle] at hstep
              injection hstep with hstep
              subst hstep
              exact hPe
            · rw [if_neg hle] at hstep
              injection hstep with hstep
              subst hstep
              exact hPe
      · rw [if_neg (by simp [hev0])] at hstep
        injection hstep with hstep
        subst hstep
        exact hbase hev2

/-- Characterization of a successful eviction: the frame was tracked, and
the new state is the old one with that record erased and the size
decremented. -/
theorem evict_found {s : LRUKReplacer} {f : Nat} {s1 : LRUKReplacer}
    (hco : ∀ e ∈ s.node_store, e.1 = e.2.fid)
    (h : s.Evict = Except.ok (some f, s1)) :
    f ∈ akeys s.node_store ∧
    s1 = { s with node_store := aerase s.node_store f,
                  curr_size := s.curr_size - 1 } := by
  unfold LRUKReplacer.Evict at h
  split at h
  · cases h
  · rename_i acc hloop
    split at h
    · rename_i hev
      injection h with h
      have hf : some acc.frame_id = some f := congrArg Prod.fst h
      injection hf with hf
      subst hf
      have hs1 := congrArg Prod.snd h
      refine ⟨?_, hs1.symm⟩
      exact evictLoop_found (P := fun g => g ∈ akeys s.node_store)
        s.node_store _ acc
        (fun e he => ⟨hco e he, mem_akeys.mpr ⟨e.2, by simpa using he⟩⟩)
        (by simp) hloop hev
    · injection h with h
      have h2 := congrArg Prod.fst h
      simp at h2

/-- Everything `FindAvailableFrame` guarantees about a successfully
returned frame on an invariant-satisfying pool: the frame is in range and
holds no page-table entry of the returned state, all structural pieces of
the invariant still hold there, and one frame has been checked out of the
`free list + page table` count. -/
theorem faf_found_spec {s : BufferPoolManager} {f : Nat} {s1 : BufferPoolManager}
    (hInv : s.Inv) (h : s.FindAvailableFrame = FAFResult.found f s1) :
    s1.pool_size = s.pool_size ∧
    s1.pages.length = s.pages.length ∧
    s1.next_page_id = s.next_page_id ∧
    f < s.pool_size ∧
    (akeys s1.page_table).Nodup ∧
    (avalues s1.page_table).Nodup ∧
    (∀ e ∈ s1.page_table, 0 ≤ e.1 ∧ e.1 < s.next_page_id ∧
      (s1.pages.getD e.2 defaultPage).page_id = e.1) ∧
    f ∉ avalues s1.page_table ∧
    s1.free_list.Nodup ∧
    (∀ g ∈ s1.free_list, g < s.pool_size ∧ g ∉ avalues s1.page_table ∧ g ≠ f) ∧
    (∀ e ∈ s1.replacer.node_store, e.1 = e.2.fid ∧
      (e.1 ∈ avalues s1.page_table ∨ e.1 = f)) ∧
    (akeys s1.replacer.node_store).Nodup ∧
    (∀ k1, k1 ∈ akeys s1.page_table → k1 ∈ akeys s.page_table) ∧
    s1.free_list.length + s1.page_table.length + 1 = s.pool_size := by
  obtain ⟨hlen, hn0, hknd, hvnd, hpt, hfnd, hfree, hrep, hrnd, hsum⟩ := hInv
  unfold BufferPoolManager.FindAvailableFrame at h
  split at h
  · -- the free list is non-empty
    rename_i f0 rest hfl
    injection h with hf hs1
    have hf2 : f = f0 := hf.symm
    subst hf2
    have hmemf : f ∈ s.free_list := by rw [hfl]; simp
    obtain ⟨hflt, hfvals⟩ := hfree f hmemf
    have hndf : (f :: rest).Nodup := by rw [← hfl]; exact hfnd
    refine ⟨by rw [← hs1], by rw [← hs1], by rw [← hs1], hflt,
      by rw [← hs1]; exact hknd, by rw [← hs1]; exact hvnd,
      ?_, by rw [← hs1]; exact hfvals,
      by rw [← hs1]; exact (List.nodup_cons.mp hndf).2, ?_, ?_,
      by rw [← hs1]; exact hrnd, by rw [← hs1]; exact fun k1 hk => hk, ?_⟩
    · rw [← hs1]
      exact fun e he => hpt e he
    · rw [← hs1]
      intro g hg
      have hg2 : g ∈ s.free_list := by rw [hfl]; exact List.mem_cons_of_mem _ hg
      exact ⟨(hfree g hg2).1, (hfree g hg2).2,
        fun he => (List.nodup_cons.mp hndf).1 (he ▸ hg)⟩
    · rw [← hs1]
      exact fun e he => ⟨(hrep e he).1, Or.inl (hrep e he).2⟩
    · rw [← hs1]
      rw [hfl] at hsum
      simp only [List.length_cons] at hsum ⊢
      omega
  · -- the free list is empty: evict
    rename_i hfl
    split at h
    · cases h
    · cases h
    · rename_i f0 r1 hev
      injection h with hf hs1
      have hf2 : f = f0 := hf.symm
      subst hf2
      obtain ⟨hfk, hr1⟩ := evict_found (fun e he => (hrep e he).1) hev
      obtain ⟨node, hnode⟩ := mem_akeys.mp hfk
      have hfval : f ∈ avalues s.page_table := (hrep _ hnode).2
      obtain ⟨pid0, hmem0⟩ := mem_avalues.mp hfval
      obtain ⟨hpid0, hpidlt, hpg⟩ := hpt _ hmem0
      have hflen : f < s.pages.length := frame_lt_of_mem_pt hlen hpt hmem0
      have hperm := aerase_perm hknd hmem0
      have hkperm : (akeys s.page_table).Perm
          (pid0 :: akeys (aerase s.page_table pid0)) := by
        simpa [akeys] using hperm.map Prod.fst
      have hvperm : (avalues s.page_table).Perm
          (f :: avalues (aerase s.page_table pid0)) := by
        simpa [avalues] using hperm.map Prod.snd
      have hknd1 := hkperm.nodup_iff.mp hknd
      have hvnd1 := hvperm.nodup_iff.mp hvnd
      have hfnotin : f ∉ avalues (aerase s.page_table pid0) :=
        (List.nodup_cons.mp hvnd1).1
      have hlen1 : s.page_table.length = (aerase s.page_table pid0).length + 1 := by
        simpa using hperm.length_eq
      -- branch-independent facts about the erased page table and the
      -- replacer store
      have hptb : ∀ e ∈ aerase s.page_table pid0, 0 ≤ e.1 ∧ e.1 < s.next_page_id ∧
          e.2 ≠ f ∧ (s.pages.getD e.2 defaultPage).page_id = e.1 := by
        intro e he
        have he0 : e ∈ s.page_table := (aerase_sublist _ _).subset he
        obtain ⟨h1, h2, h3⟩ := hpt e he0
        have hne2 : e.2 ≠ f := by
          intro hef
          exact hfnotin (hef ▸ mem_avalues.mpr ⟨e.1, by simpa using he⟩)
        exact ⟨h1, h2, hne2, h3⟩
      have hrepb : ∀ e ∈ aerase s.replacer.node_store f, e.1 = e.2.fid ∧
          (e.1 ∈ avalues (aerase s.page_table pid0) ∨ e.1 = f) := by
        intro e he
        have he0 : e ∈ s.replacer.node_store := (aerase_sublist _ _).subset he
        refine ⟨(hrep e he0).1, ?_⟩
        have hv2 : e.1 ∈ f :: avalues (aerase s.page_table pid0) :=
          hvperm.mem_iff.mp (hrep e he0).2
        rcases List.mem_cons.mp hv2 with hv2 | hv2
        · exact Or.inr hv2
        · exact Or.inl hv2
      have hrndb : (akeys (aerase s.replacer.node_store f)).Nodup :=
        (akeys_aerase_sublist _ _).nodup hrnd
      have hksub : ∀ k1, k1 ∈ akeys (aerase s.page_table pid0) →
          k1 ∈ akeys s.page_table := fun k1 hk => (akeys_aerase_sublist _ _).subset hk
      have hsumb : (aerase s.page_table pid0).length + 1 = s.pool_size := by
        rw [hfl] at hsum
        simp only [List.length_nil] at hsum
        omega
      by_cases hd : (s.pages.getD f defaultPage).is_dirty = true
      · simp only [BufferPoolManager.getPage, hd, reduceIte, hpg, hfl, hr1] at hs1
        subst hs1
        refine ⟨rfl, by simp, rfl, by rw [← hlen]; exact hflen,
          hknd1.of_cons, (List.nodup_cons.mp hvnd1).2, ?_, hfnotin,
          List.nodup_nil, by intro g hg; simp at hg, hrepb, hrndb, hksub, by
            simp only [List.length_nil]
            omega⟩
        intro e he
        obtain ⟨h1, h2, hne2, h3⟩ := hptb e he
        refine ⟨h1, h2, ?_⟩
        rw [getD_set_ne _ (fun hx => hne2 hx.symm)]
        exact h3
      · simp only [BufferPoolManager.getPage, hd, Bool.false_eq_true, reduceIte,
          hpg, hfl, hr1] at hs1
        subst hs1
        refine ⟨rfl, rfl, rfl, by rw [← hlen]; exact hflen,
          hknd1.of_cons, (List.nodup_cons.mp hvnd1).2, ?_, hfnotin,
          List.nodup_nil, by intro g hg; simp at hg, hrepb, hrndb, hksub, by
            simp only [List.length_nil]
            omega⟩
        intro e he
        obtain ⟨h1, h2, hne2, h3⟩ := hptb e he
        exact ⟨h1, h2, h3⟩

/-- After `PinPage`'s `SetEvictable(f, false); RecordAccess(f)` pair, frame
`f` is tracked, non-evictable, and carries exactly one more recorded access
than before. -/
theorem pin_node_facts (r : LRUKReplacer) (f : Nat) :
    ∃ node, alookup ((r.SetEvictable f false).RecordAccess f).node_store f = some node ∧
      node.is_evictable = false ∧
      node.history.length = (match alookup r.node_store f with
        | none => 0
        | some n0 => n0.history.length) + 1 := by
  cases h : alookup r.node_store f with
  | none =>
    have h2 : r.SetEvictable f false = r := by
      unfold LRUKReplacer.SetEvictable
      rw [h]
    rw [h2]
    unfold LRUKReplacer.RecordAccess
    rw [h]
    refine ⟨⟨f, false, [r.current_timestamp]⟩, ?_, rfl, ?_⟩
    · simp [alookup_aassign_self]
    · simp [h]
  | some node =>
    have h2 : alookup (r.SetEvictable f false).node_store f =
        some { node with is_evictable := false } := by
      unfold LRUKReplacer.SetEvictable
      rw [h]
      by_cases hev : node.is_evictable = true
      · simp [hev, alookup_aassign_self]
      · obtain ⟨fid0, ev0, hist0⟩ := node
        simp only at hev
        simp [show ev0 = false from by revert hev; cases ev0 <;> simp, h]
    unfold LRUKReplacer.RecordAccess
    rw [h2]
    refine ⟨⟨node.fid, false,
      (r.SetEvictable f false).current_timestamp :: node.history⟩, ?_, rfl, ?_⟩
    · simp [alookup_aassign_self]
    · simp [h]

/-- C10.  Fetching a resident page touches nothing but the pin count and
the replacer: the page table, the free list, the disk, the I/O trace, the
allocator counter, and the frame's id, dirty bit and contents are all
unchanged; the pin count goes up by one, every other frame is untouched,
and the replacer state is exactly `SetEvictable(f, false)` followed by
`RecordAccess(f)`, leaving frame `f` tracked non-evictable with one more
recorded access. -/
theorem fetch_resident_effect (s : BufferPoolManager) (page_id : Int) (f : Nat)
    (hInv : s.Inv) (hres : alookup s.page_table page_id = some f) :
    ∃ s1, s.FetchPage page_id = some (some f, s1) ∧
      s1.page_table = s.page_table ∧
      s1.free_list = s.free_list ∧
      s1.io = s.io ∧
      s1.disk = s.disk ∧
      s1.next_page_id = s.next_page_id ∧
      s1.pool_size = s.pool_size ∧
      (s1.getPage f).pin_count = (s.getPage f).pin_count + 1 ∧
      (s1.getPage f).is_dirty = (s.getPage f).is_dirty ∧
      (s1.getPage f).page_id = (s.getPage f).page_id ∧
      (s1.getPage f).data = (s.getPage f).data ∧
      (∀ g, g ≠ f → s1.getPage g = s.getPage g) ∧
      s1.replacer = (s.replacer.SetEvictable f false).RecordAccess f ∧
      (∃ node, alookup s1.replacer.node_store f = some node ∧
        node.is_evictable = false ∧
        node.history.length = (match alookup s.replacer.node_store f with
          | none => 0
          | some n0 => n0.history.length) + 1) := by
  have hmem : (page_id, f) ∈ s.page_table := alookup_mem hres
  obtain ⟨hlen, hn0, hknd, hvnd, hpt, hrest⟩ := hInv
  have hflt : f < s.pages.length := frame_lt_of_mem_pt hlen hpt hmem
  refine ⟨BufferPoolManager.PinPage
      { s with pages :=
          s.pages.set f ({ s.getPage f with pin_count := (s.getPage f).pin_count + 1 }) } f,
    ?_, rfl, rfl, rfl, rfl, rfl, rfl, ?_, ?_, ?_, ?_, ?_, rfl,
    pin_node_facts s.replacer f⟩
  · unfold BufferPoolManager.FetchPage
    rw [hres]
  · show ((s.pages.set f ({ s.getPage f with
        pin_count := (s.getPage f).pin_count + 1 })).getD f defaultPage).pin_count =
      (s.getPage f).pin_count + 1
    rw [getD_set_self s.pages hflt]
  · show ((s.pages.set f ({ s.getPage f with
        pin_count := (s.getPage f).pin_count + 1 })).getD f defaultPage).is_dirty =
      (s.getPage f).is_dirty
    rw [getD_set_self s.pages hflt]
  · show ((s.pages.set f ({ s.getPage f with
        pin_count := (s.getPage f).pin_count + 1 })).getD f defaultPage).page_id =
      (s.getPage f).page_id
    rw [getD_set_self s.pages hflt]
  · show ((s.pages.set f ({ s.getPage f with
        pin_count := (s.getPage f).pin_count + 1 })).getD f defaultPage).data =
      (s.getPage f).data
    rw [getD_set_self s.pages hflt]
  · intro g hg
    show (s.pages.set f ({ s.getPage f with
        pin_count := (s.getPage f).pin_count + 1 })).getD g defaultPage =
      s.pages.getD g defaultPage
    exact getD_set_ne _ (fun hx => hg hx.symm) _ _

/-- A concrete resident pool state for the witness: one frame holding page
0, pinned once. -/
def c10State : BufferPoolManager :=
  { pool_size := 1,
    pages := [{ page_id := 0, pin_count := 1, is_dirty := false, data := 0 }],
    page_table := [(0, 0)],
    free_list := [],
    replacer := { node_store := [(0, ⟨0, false, [0]⟩)], curr_size := 0,
                  replacer_size := 1, k := 2, current_timestamp := 1 },
    next_page_id := 1,
    disk := [],
    io := [] }

/-- Witness for `fetch_resident_effect` at a concrete input. -/
theorem fetch_resident_effect_witness :
    c10State.Inv ∧ alookup c10State.page_table 0 = some 0 ∧
    (∃ s1, c10State.FetchPage 0 = some (some 0, s1) ∧
      s1.page_table = c10State.page_table ∧
      s1.free_list = c10State.free_list ∧
      s1.io = c10State.io ∧
      s1.disk = c10State.disk ∧
      s1.next_page_id = c10State.next_page_id ∧
      s1.pool_size = c10State.pool_size ∧
      (s1.getPage 0).pin_count = (c10State.getPage 0).pin_count + 1 ∧
      (s1.getPage 0).is_dirty = (c10State.getPage 0).is_dirty ∧
      (s1.getPage 0).page_id = (c10State.getPage 0).page_id ∧
      (s1.getPage 0).data = (c10State.getPage 0).data ∧
      (∀ g, g ≠ 0 → s1.getPage g = c10State.getPage g) ∧
      s1.replacer = (c10State.replacer.SetEvictable 0 false).RecordAccess 0 ∧
      (∃ node, alookup s1.replacer.node_store 0 = some node ∧
        node.is_evictable = false ∧
        node.history.length = (match alookup c10State.replacer.node_store 0 with
          | none => 0
          | some n0 => n0.history.length) + 1)) :=
  ⟨by decide, by decide, fetch_resident_effect c10State 0 0 (by decide) (by decide)⟩

/-! ### Invariant preservation, operation by operation -/

theorem inv_unpinPage (s : BufferPoolManager) (pid : Int) (d : Bool)
    (hInv : s.Inv) :
    (s.UnpinPage pid d).2.Inv ∧ (s.UnpinPage pid d).2.pool_size = s.pool_size := by
  obtain ⟨hlen, hn0, hknd, hvnd, hpt, hfnd, hfree, hrep, hrnd, hsum⟩ := hInv
  unfold BufferPoolManager.UnpinPage
  cases hres : alookup s.page_table pid with
  | none => exact ⟨⟨hlen, hn0, hknd, hvnd, hpt, hfnd, hfree, hrep, hrnd, hsum⟩, rfl⟩
  | some f =>
    have hmemf : (pid, f) ∈ s.page_table := alookup_mem hres
    have hflt : f < s.pages.length := frame_lt_of_mem_pt hlen hpt hmemf
    by_cases hpc : (s.getPage f).pin_count = 0
    · simp only [hpc, reduceIte]
      exact ⟨⟨hlen, hn0, hknd, hvnd, hpt, hfnd, hfree, hrep, hrnd, hsum⟩, by trivial⟩
    · simp only [hpc, reduceIte]
      have hptn : ∀ e ∈ s.page_table, 0 ≤ e.1 ∧ e.1 < s.next_page_id ∧
          ((s.pages.set f ({ s.getPage f with
              pin_count := (s.getPage f).pin_count - 1,
              is_dirty := (s.getPage f).is_dirty || d })).getD e.2 defaultPage).page_id = e.1 := by
        intro e he
        obtain ⟨h1, h2, h3⟩ := hpt e he
        by_cases hef : e.2 = f
        · refine ⟨h1, h2, ?_⟩
          rw [hef, getD_set_self _ hflt]
          rw [hef] at h3
          exact h3
        · refine ⟨h1, h2, ?_⟩
          rw [getD_set_ne _ (fun hx => hef hx.symm)]
          exact h3
      have hrep2 := store_facts_setEvictable (r := s.replacer) (f := f) true
        (P := fun g => g ∈ avalues s.page_table) hrep hrnd
      by_cases hpc0 : (s.getPage f).pin_count - 1 = 0
      · rw [if_pos hpc0]
        exact ⟨⟨by simp [hlen], hn0, hknd, hvnd, hptn, hfnd, hfree, hrep2.1, hrep2.2,
          by simpa using hsum⟩, by trivial⟩
      · rw [if_neg hpc0]
        exact ⟨⟨by simp [hlen], hn0, hknd, hvnd, hptn, hfnd, hfree, hrep, hrnd,
          by simpa using hsum⟩, by trivial⟩

theorem inv_flushPage (s : BufferPoolManager) (pid : Int)
    (hInv : s.Inv) :
    (s.FlushPage pid).2.Inv ∧ (s.FlushPage pid).2.pool_size = s.pool_size := by
  obtain ⟨hlen, hn0, hknd, hvnd, hpt, hfnd, hfree, hrep, hrnd, hsum⟩ := hInv
  unfold BufferPoolManager.FlushPage
  by_cases hinv0 : pid = INVALID_PAGE_ID
  · simp only [hinv0, reduceIte]
    exact ⟨⟨hlen, hn0, hknd, hvnd, hpt, hfnd, hfree, hrep, hrnd, hsum⟩, by trivial⟩
  · simp only [hinv0, reduceIte]
    cases hres : alookup s.page_table pid with
    | none => exact ⟨⟨hlen, hn0, hknd, hvnd, hpt, hfnd, hfree, hrep, hrnd, hsum⟩, by trivial⟩
    | some f =>
      have hmemf : (pid, f) ∈ s.page_table := alookup_mem hres
      have hflt : f < s.pages.length := frame_lt_of_mem_pt hlen hpt hmemf
      have hptn : ∀ e ∈ s.page_table, 0 ≤ e.1 ∧ e.1 < s.next_page_id ∧
          ((s.pages.set f ({ s.getPage f with
              is_dirty := false })).getD e.2 defaultPage).page_id = e.1 := by
        intro e he
        obtain ⟨h1, h2, h3⟩ := hpt e he
        by_cases hef : e.2 = f
        · refine ⟨h1, h2, ?_⟩
          rw [hef, getD_set_self _ hflt]
          rw [hef] at h3
          exact h3
        · refine ⟨h1, h2, ?_⟩
          rw [getD_set_ne _ (fun hx => hef hx.symm)]
          exact h3
      exact ⟨⟨by simp [hlen], hn0, hknd, hvnd, hptn, hfnd, hfree, hrep, hrnd,
        by simpa using hsum⟩, by trivial⟩

theorem inv_flushKeys : ∀ (keys0 : List Int) (s : BufferPoolManager),
    s.Inv → (flushKeys s keys0).Inv ∧ (flushKeys s keys0).pool_size = s.pool_size
  | [], s, hInv => ⟨hInv, rfl⟩
  | pid :: rest, s, hInv => by
    obtain ⟨hInv1, hp1⟩ := inv_flushPage s pid hInv
    obtain ⟨hInv2, hp2⟩ := inv_flushKeys rest (s.FlushPage pid).2 hInv1
    exact ⟨hInv2, by rw [flushKeys]; omega⟩

theorem inv_flushAllPages (s : BufferPoolManager) (hInv : s.Inv) :
    s.FlushAllPages.Inv ∧ s.FlushAllPages.pool_size = s.pool_size :=
  inv_flushKeys (akeys s.page_table) s hInv

/-- Characterization of a non-throwing `Remove`: either the frame was
untracked (no-op), or its record is erased. -/
theorem remove_spec {r : LRUKReplacer} {f : Nat} {r1 : LRUKReplacer}
    (h : r.Remove f = some r1) :
    (r1 = r ∧ alookup r.node_store f = none) ∨
    (∃ node, alookup r.node_store f = some node ∧
      r1 = { r with node_store := aerase r.node_store f,
                    curr_size := r.curr_size - 1 }) := by
  unfold LRUKReplacer.Remove at h
  split at h
  · rename_i hlook
    injection h with h
    exact Or.inl ⟨h.symm, hlook⟩
  · rename_i node hlook
    split at h
    · injection h with h
      exact Or.inr ⟨node, hlook, h.symm⟩
    · cases h

theorem inv_deletePage (s : BufferPoolManager) (pid : Int) {b : Bool}
    {s1 : BufferPoolManager} (hInv : s.Inv)
    (h : s.DeletePage pid = some (b, s1)) :
    s1.Inv ∧ s1.pool_size = s.pool_size := by
  obtain ⟨hlen, hn0, hknd, hvnd, hpt, hfnd, hfree, hrep, hrnd, hsum⟩ := hInv
  unfold BufferPoolManager.DeletePage at h
  split at h
  · injection h with h
    have hs : s = s1 := congrArg Prod.snd h
    rw [← hs]
    exact ⟨⟨hlen, hn0, hknd, hvnd, hpt, hfnd, hfree, hrep, hrnd, hsum⟩, rfl⟩
  · rename_i f hres
    simp only [BufferPoolManager.getPage] at h
    split at h
    · injection h with h
      have hs : s = s1 := congrArg Prod.snd h
      rw [← hs]
      exact ⟨⟨hlen, hn0, hknd, hvnd, hpt, hfnd, hfree, hrep, hrnd, hsum⟩, rfl⟩
    · split at h
      · cases h
      · rename_i r1 hrem
        injection h with h
        injection h with hb hs1
        subst hs1
        have hrem2 : s.replacer.Remove f = some r1 := hrem
        have hmem : (pid, f) ∈ s.page_table := alookup_mem hres
        have hflt : f < s.pages.length := frame_lt_of_mem_pt hlen hpt hmem
        have hperm := aerase_perm hknd hmem
        have hkperm : (akeys s.page_table).Perm
            (pid :: akeys (aerase s.page_table pid)) := by
          simpa [akeys] using hperm.map Prod.fst
        have hvperm : (avalues s.page_table).Perm
            (f :: avalues (aerase s.page_table pid)) := by
          simpa [avalues] using hperm.map Prod.snd
        have hknd1 := hkperm.nodup_iff.mp hknd
        have hvnd1 := hvperm.nodup_iff.mp hvnd
        have hfnotin : f ∉ avalues (aerase s.page_table pid) :=
          (List.nodup_cons.mp hvnd1).1
        have hlen1 : s.page_table.length = (aerase s.page_table pid).length + 1 := by
          simpa using hperm.length_eq
        have hfvals : f ∈ avalues s.page_table := mem_avalues.mpr ⟨pid, hmem⟩
        have hfnotfree : f ∉ s.free_list := fun hf => (hfree f hf).2 hfvals
        have hrepn : ∀ e ∈ r1.node_store, e.1 = e.2.fid ∧
            e.1 ∈ avalues (aerase s.page_table pid) := by
          rcases remove_spec hrem2 with ⟨hr1, hnone⟩ | ⟨node, hsome, hr1⟩
          · subst hr1
            rintro ⟨e1, e2⟩ he
            refine ⟨(hrep _ he).1, ?_⟩
            have hne : e1 ≠ f := by
              intro hef
              have hmem2 : e1 ∈ akeys s.replacer.node_store := mem_akeys.mpr ⟨e2, he⟩
              rw [hef] at hmem2
              exact ((alookup_eq_none_iff _ _).mp hnone) hmem2
            have hv2 := hvperm.mem_iff.mp (hrep _ he).2
            rcases List.mem_cons.mp hv2 with hv2 | hv2
            · exact absurd hv2 hne
            · exact hv2
          · subst hr1
            rintro ⟨e1, e2⟩ he
            have he0 : (e1, e2) ∈ s.replacer.node_store := (aerase_sublist _ _).subset he
            refine ⟨(hrep _ he0).1, ?_⟩
            have hnodef : (f, node) ∈ s.replacer.node_store := alookup_mem hsome
            have hsperm := aerase_perm hrnd hnodef
            have hskperm : (akeys s.replacer.node_store).Perm
                (f :: akeys (aerase s.replacer.node_store f)) := by
              simpa [akeys] using hsperm.map Prod.fst
            have hfout : f ∉ akeys (aerase s.replacer.node_store f) :=
              (List.nodup_cons.mp (hskperm.nodup_iff.mp hrnd)).1
            have hne : e1 ≠ f := by
              intro hef
              have hmem2 : e1 ∈ akeys (aerase s.replacer.node_store f) :=
                mem_akeys.mpr ⟨e2, he⟩
              rw [hef] at hmem2
              exact hfout hmem2
            have hv2 := hvperm.mem_iff.mp (hrep _ he0).2
            rcases List.mem_cons.mp hv2 with hv2 | hv2
            · exact absurd hv2 hne
            · exact hv2
        have hrndn : (akeys r1.node_store).Nodup := by
          rcases remove_spec hrem2 with ⟨hr1, _⟩ | ⟨node, _, hr1⟩
          · subst hr1; exact hrnd
          · subst hr1; exact (akeys_aerase_sublist _ _).nodup hrnd
        refine ⟨⟨hlen, hn0, hknd1.of_cons, (List.nodup_cons.mp hvnd1).2, ?_,
          List.nodup_cons.mpr ⟨hfnotfree, hfnd⟩, ?_, hrepn, hrndn, ?_⟩, rfl⟩
        · intro e he
          have he0 : e ∈ s.page_table := (aerase_sublist _ _).subset he
          exact hpt e he0
        · intro g hg
          rcases List.mem_cons.mp hg with hg | hg
          · subst hg
            exact ⟨by rw [← hlen]; exact hflt, hfnotin⟩
          · refine ⟨(hfree g hg).1, ?_⟩
            intro hgv
            exact (hfree g hg).2 ((avalues_aerase_sublist _ _).subset hgv)
        · simp only [List.length_cons]
          omega

theorem inv_newPage (s : BufferPoolManager) {ret : Option (Int × Nat)}
    {s2 : BufferPoolManager} (hInv : s.Inv)
    (h : s.NewPage = some (ret, s2)) :
    s2.Inv ∧ s2.pool_size = s.pool_size := by
  unfold BufferPoolManager.NewPage at h
  split at h
  · cases h
  · injection h with h
    injection h with hb hs2
    subst hs2
    exact ⟨hInv, rfl⟩
  · rename_i f s1 hfaf
    obtain ⟨hpool1, hp1, hnext1, hflt, hknd1, hvnd1, hpt1, hfnot, hfnd1, hfree1,
      hrep1, hrnd1, hksub1, hsum1⟩ := faf_found_spec hInv hfaf
    obtain ⟨hlen, hn0, hknd, hvnd, hpt, hfnd, hfree, hrep, hrnd, hsum⟩ := hInv
    injection h with h
    injection h with hret hs2
    subst hs2
    have hzlt : f < s1.pages.length := by
      rw [hp1, hlen]
      exact hflt
    have hn1 : 0 ≤ s1.next_page_id := by rw [hnext1]; exact hn0
    have hpidfresh : alookup s1.page_table s1.next_page_id = none := by
      rw [alookup_eq_none_iff]
      intro hk
      obtain ⟨v, hv⟩ := mem_akeys.mp (hksub1 _ hk)
      have := (hpt _ hv).2.1
      rw [hnext1] at this
      omega
    have havals : ∀ g, (g ∈ avalues s1.page_table ∨ g = f) →
        g ∈ avalues (aassign s1.page_table s1.next_page_id f) := by
      intro g hg
      rw [avalues_aassign_absent _ hpidfresh]
      rcases hg with hg | hg
      · exact List.mem_append_left _ hg
      · subst hg
        exact List.mem_append_right _ (by simp)
    have hst1 := store_facts_setEvictable (r := s1.replacer) (f := f) false
      (P := fun g => g ∈ avalues (aassign s1.page_table s1.next_page_id f))
      (fun e he => ⟨(hrep1 e he).1, havals _ (hrep1 e he).2⟩) hrnd1
    have hst2 := store_facts_recordAccess (r := s1.replacer.SetEvictable f false)
      (f := f) hst1.1 hst1.2 (havals f (Or.inr rfl))
    have hptn : ∀ e ∈ aassign s1.page_table s1.next_page_id f,
        0 ≤ e.1 ∧ e.1 < s1.next_page_id + 1 ∧
        ((s1.pages.set f ({ s1.getPage f with page_id := s1.next_page_id, data := 0, pin_count := 1 })).getD e.2 defaultPage).page_id = e.1 := by
      intro e he
      rcases mem_aassign he with he | he
      · obtain ⟨h1, h2, h3⟩ := hpt1 e he
        have hne2 : e.2 ≠ f := by
          intro hef
          exact hfnot (hef ▸ mem_avalues.mpr ⟨e.1, by simpa using he⟩)
        refine ⟨h1, by rw [hnext1]; omega, ?_⟩
        rw [getD_set_ne _ (fun hx => hne2 hx.symm)]
        exact h3
      · subst he
        refine ⟨hn1, by omega, ?_⟩
        rw [getD_set_self _ hzlt]
    have hvn : (avalues (aassign s1.page_table s1.next_page_id f)).Nodup := by
      rw [avalues_aassign_absent _ hpidfresh]
      refine List.Nodup.append hvnd1 (by simp) ?_
      intro a ha hb
      simp at hb
      subst hb
      exact hfnot ha
    have hfreen : ∀ g ∈ s1.free_list, g < s1.pool_size ∧
        g ∉ avalues (aassign s1.page_table s1.next_page_id f) := by
      intro g hg
      obtain ⟨h1, h2, h3⟩ := hfree1 g hg
      refine ⟨by rw [hpool1]; exact h1, ?_⟩
      rw [avalues_aassign_absent _ hpidfresh]
      intro hgm
      rcases List.mem_append.mp hgm with hgm | hgm
      · exact h2 hgm
      · simp at hgm
        exact h3 hgm
    refine ⟨⟨?_, ?_,
      akeys_nodup_aassign_absent _ hknd1 hpidfresh, hvn, hptn, hfnd1, hfreen,
      hst2.1, hst2.2, ?_⟩, hpool1⟩
    · show (s1.pages.set f ({ s1.getPage f with page_id := s1.next_page_id, data := 0, pin_count := 1 })).length = s1.pool_size
      simp only [List.length_set]
      rw [hp1, hlen, hpool1]
    · show 0 ≤ s1.next_page_id + 1
      omega
    · show s1.free_list.length + (aassign s1.page_table s1.next_page_id f).length
        = s1.pool_size
      rw [length_aassign_absent _ hpidfresh, hpool1]
      omega

theorem inv_fetchPage (s : BufferPoolManager) (pid : Int) {ret : Option Nat}
    {s2 : BufferPoolManager} (hInv : s.Inv)
    (hleg : 0 ≤ pid ∧ pid < s.next_page_id)
    (h : s.FetchPage pid = some (ret, s2)) :
    s2.Inv ∧ s2.pool_size = s.pool_size := by
  unfold BufferPoolManager.FetchPage at h
  split at h
  · -- resident: pin only
    rename_i f hres
    injection h with h
    injection h with hret hs2
    subst hs2
    obtain ⟨hlen, hn0, hknd, hvnd, hpt, hfnd, hfree, hrep, hrnd, hsum⟩ := hInv
    have hmemf : (pid, f) ∈ s.page_table := alookup_mem hres
    have hflt : f < s.pages.length := frame_lt_of_mem_pt hlen hpt hmemf
    have hfv : f ∈ avalues s.page_table := mem_avalues.mpr ⟨pid, hmemf⟩
    have hst1 := store_facts_setEvictable (r := s.replacer) (f := f) false
      (P := fun g => g ∈ avalues s.page_table) hrep hrnd
    have hst2 := store_facts_recordAccess (r := s.replacer.SetEvictable f false)
      (f := f) hst1.1 hst1.2 hfv
    have hptn : ∀ e ∈ s.page_table, 0 ≤ e.1 ∧ e.1 < s.next_page_id ∧
        ((s.pages.set f ({ s.getPage f with pin_count := (s.getPage f).pin_count + 1 })).getD e.2 defaultPage).page_id = e.1 := by
      intro e he
      obtain ⟨h1, h2, h3⟩ := hpt e he
      by_cases hef : e.2 = f
      · refine ⟨h1, h2, ?_⟩
        rw [hef, getD_set_self _ hflt]
        rw [hef] at h3
        exact h3
      · refine ⟨h1, h2, ?_⟩
        rw [getD_set_ne _ (fun hx => hef hx.symm)]
        exact h3
    refine ⟨⟨?_, hn0, hknd, hvnd, hptn, hfnd, hfree, hst2.1, hst2.2, hsum⟩, rfl⟩
    show (s.pages.set f ({ s.getPage f with pin_count := (s.getPage f).pin_count + 1 })).length = s.pool_size
    simp only [List.length_set]
    exact hlen
  · -- not resident: obtain a frame and install
    rename_i hres
    split at h
    · cases h
    · injection h with h
      injection h with hb hs2
      subst hs2
      exact ⟨hInv, rfl⟩
    · rename_i f s1 hfaf
      obtain ⟨hpool1, hp1, hnext1, hflt, hknd1, hvnd1, hpt1, hfnot, hfnd1, hfree1,
        hrep1, hrnd1, hksub1, hsum1⟩ := faf_found_spec hInv hfaf
      obtain ⟨hlen, hn0, hknd, hvnd, hpt, hfnd, hfree, hrep, hrnd, hsum⟩ := hInv
      injection h with h
      injection h with hret hs2
      subst hs2
      have hzlt : f < s1.pages.length := by
        rw [hp1, hlen]
        exact hflt
      have hpidfresh : alookup s1.page_table pid = none := by
        rw [alookup_eq_none_iff]
        intro hk
        exact ((alookup_eq_none_iff _ _).mp hres) (hksub1 _ hk)
      have havals : ∀ g, (g ∈ avalues s1.page_table ∨ g = f) →
          g ∈ avalues (aassign s1.page_table pid f) := by
        intro g hg
        rw [avalues_aassign_absent _ hpidfresh]
        rcases hg with hg | hg
        · exact List.mem_append_left _ hg
        · subst hg
          exact List.mem_append_right _ (by simp)
      have hst1 := store_facts_setEvictable (r := s1.replacer) (f := f) false
        (P := fun g => g ∈ avalues (aassign s1.page_table pid f))
        (fun e he => ⟨(hrep1 e he).1, havals _ (hrep1 e he).2⟩) hrnd1
      have hst2 := store_facts_recordAccess (r := s1.replacer.SetEvictable f false)
        (f := f) hst1.1 hst1.2 (havals f (Or.inr rfl))
      have hptn : ∀ e ∈ aassign s1.page_table pid f,
          0 ≤ e.1 ∧ e.1 < s1.next_page_id ∧
          ((s1.pages.set f ({ s1.getPage f with page_id := pid, pin_count := 1, data := (alookup s1.disk pid).getD 0 })).getD e.2 defaultPage).page_id = e.1 := by
        intro e he
        rcases mem_aassign he with he | he
        · obtain ⟨h1, h2, h3⟩ := hpt1 e he
          have hne2 : e.2 ≠ f := by
            intro hef
            exact hfnot (hef ▸ mem_avalues.mpr ⟨e.1, by simpa using he⟩)
          refine ⟨h1, by rw [hnext1]; omega, ?_⟩
          rw [getD_set_ne _ (fun hx => hne2 hx.symm)]
          exact h3
        · subst he
          refine ⟨hleg.1, by rw [hnext1]; exact hleg.2, ?_⟩
          rw [getD_set_self _ hzlt]
      have hvn : (avalues (aassign s1.page_table pid f)).Nodup := by
        rw [avalues_aassign_absent _ hpidfresh]
        refine List.Nodup.append hvnd1 (by simp) ?_
        intro a ha hb
        simp at hb
        subst hb
        exact hfnot ha
      have hfreen : ∀ g ∈ s1.free_list, g < s1.pool_size ∧
          g ∉ avalues (aassign s1.page_table pid f) := by
        intro g hg
        obtain ⟨h1, h2, h3⟩ := hfree1 g hg
        refine ⟨by rw [hpool1]; exact h1, ?_⟩
        rw [avalues_aassign_absent _ hpidfresh]
        intro hgm
        rcases List.mem_append.mp hgm with hgm | hgm
        · exact h2 hgm
        · simp at hgm
          exact h3 hgm
      refine ⟨⟨?_, ?_,
        akeys_nodup_aassign_absent _ hknd1 hpidfresh, hvn, hptn, hfnd1, hfreen,
        hst2.1, hst2.2, ?_⟩, hpool1⟩
      · show (s1.pages.set f ({ s1.getPage f with page_id := pid, pin_count := 1, data := (alookup s1.disk pid).getD 0 })).length = s1.pool_size
        simp only [List.length_set]
        rw [hp1, hlen, hpool1]
      · show 0 ≤ s1.next_page_id
        rw [hnext1]
        exact hn0
      · show s1.free_list.length + (aassign s1.page_table pid f).length = s1.pool_size
        rw [length_aassign_absent _ hpidfresh, hpool1]
        omega

theorem inv_applyOp {s s1 : BufferPoolManager} {op : BPOp} (hInv : s.Inv)
    (hleg : legalOp s op = true) (h : applyOp s op = some s1) :
    s1.Inv ∧ s1.pool_size = s.pool_size := by
  cases op with
  | newPage =>
    cases hw : s.NewPage with
    | none => simp [applyOp, hw] at h
    | some p =>
      obtain ⟨ret, st⟩ := p
      simp [applyOp, hw] at h
      subst h
      exact inv_newPage s hInv hw
  | fetchPage pid =>
    have hleg2 : 0 ≤ pid ∧ pid < s.next_page_id := by
      simp [legalOp] at hleg
      exact hleg
    cases hw : s.FetchPage pid with
    | none => simp [applyOp, hw] at h
    | some p =>
      obtain ⟨ret, st⟩ := p
      simp [applyOp, hw] at h
      subst h
      exact inv_fetchPage s pid hInv hleg2 hw
  | unpinPage pid d =>
    simp [applyOp] at h
    subst h
    exact inv_unpinPage s pid d hInv
  | flushPage pid =>
    simp [applyOp] at h
    subst h
    exact inv_flushPage s pid hInv
  | flushAllPages =>
    simp [applyOp] at h
    subst h
    exact inv_flushAllPages s hInv
  | deletePage pid =>
    cases hw : s.DeletePage pid with
    | none => simp [applyOp, hw] at h
    | some p =>
      obtain ⟨ret, st⟩ := p
      simp [applyOp, hw] at h
      subst h
      exact inv_deletePage s pid hInv hw

theorem inv_runOps : ∀ (ops : List BPOp) (s s1 : BufferPoolManager),
    s.Inv → legalOps s ops = true → runOps s ops = some s1 →
    s1.Inv ∧ s1.pool_size = s.pool_size
  | [], s, s1, hInv, _, hrun => by
    simp [runOps] at hrun
    subst hrun
    exact ⟨hInv, rfl⟩
  | op :: rest, s, s1, hInv, hleg, hrun => by
    simp only [legalOps, Bool.and_eq_true] at hleg
    obtain ⟨hleg1, hleg2⟩ := hleg
    cases hstep : applyOp s op with
    | none =>
      simp only [runOps, hstep] at hrun
      cases hrun
    | some smid =>
      simp only [runOps, hstep] at hrun
      rw [hstep] at hleg2
      obtain ⟨hInv1, hp1⟩ := inv_applyOp hInv hleg1 hstep
      obtain ⟨hInv2, hp2⟩ := inv_runOps rest smid s1 hInv1 hleg2 hrun
      exact ⟨hInv2, by omega⟩

theorem inv_mk0 (n k : Nat) : (BufferPoolManager.mk0 n k).Inv := by
  unfold BufferPoolManager.mk0 BufferPoolManager.Inv ptOK
  refine ⟨by simp, by simp, by simp [akeys], by simp [avalues], ?_, ?_, ?_, ?_, ?_, by simp⟩
  · intro e he
    simp at he
  · simp [List.nodup_range]
  · intro f hf
    simp at hf
    exact ⟨hf, by simp [avalues]⟩
  · intro e he
    simp [LRUKReplacer.mk0] at he
  · simp [LRUKReplacer.mk0, akeys]

/-- C5, counterexample.  The claim quantifies over every sequence of public
operations, but a `fetch_page` of a page id the allocator has not yet
handed out breaks the equality: on a pool of two frames, `fetch_page(1)`
installs `1 → frame 0`; `new_page()` allocates id 0 into frame 1;
`unpin_page(0)`; the next `new_page()` evicts frame 1 and allocates id 1 —
and `page_table_[1] = 1` overwrites the existing key 1 instead of adding an
entry, so one frame leaks: `|free_list| + |page_table| = 0 + 1 = 1 ≠ 2`. -/
theorem c5_fetch_unallocated_breaks_count :
    (runOps (BufferPoolManager.mk0 2 2)
      [BPOp.fetchPage 1, BPOp.newPage, BPOp.unpinPage 0 false, BPOp.newPage]).map
      (fun s => (s.pool_size, s.free_list.length + s.page_table.length)) =
      some (2, 1) := by
  decide

/-- C5, amended.  Starting from the initial pool state, the equality
`|free_list| + |page_table| = pool_size` holds after every completed public
buffer-pool operation, for every sequence of such operations in which each
`fetch_page` call targets an already-allocated page id
(`0 ≤ page_id < next_page_id_` at the time of the call). -/
theorem free_plus_resident_eq_pool_size (n k : Nat) (ops : List BPOp)
    (s : BufferPoolManager)
    (hleg : legalOps (BufferPoolManager.mk0 n k) ops = true)
    (hrun : runOps (BufferPoolManager.mk0 n k) ops = some s) :
    s.free_list.length + s.page_table.length = n := by
  obtain ⟨hInv, hps⟩ := inv_runOps ops _ s (inv_mk0 n k) hleg hrun
  have hsum := hInv.2.2.2.2.2.2.2.2.2
  rw [hsum, hps]
  rfl

/-- An operation sequence exercising every public call for the witness. -/
def c5Ops : List BPOp :=
  [BPOp.newPage, BPOp.unpinPage 0 true, BPOp.newPage, BPOp.fetchPage 0,
   BPOp.flushPage 0, BPOp.flushAllPages, BPOp.unpinPage 1 false,
   BPOp.deletePage 1, BPOp.deletePage 5]

def c5Final : BufferPoolManager :=
  (runOps (BufferPoolManager.mk0 2 2) c5Ops).getD (BufferPoolManager.mk0 2 2)

/-- Witness for `free_plus_resident_eq_pool_size` at a concrete input. -/
theorem free_plus_resident_eq_pool_size_witness :
    legalOps (BufferPoolManager.mk0 2 2) c5Ops = true ∧
    runOps (BufferPoolManager.mk0 2 2) c5Ops = some c5Final ∧
    c5Final.free_list.length + c5Final.page_table.length = 2 :=
  ⟨by decide, by decide,
    free_plus_resident_eq_pool_size 2 2 c5Ops c5Final (by decide) (by decide)⟩

/-- A replacer state for the witness: spec scenario 5 (`k = 2`, accesses
`x@0, a@1, b@2, a@3, b@4, a@5`, `a` and `b` evictable). -/
def c2State : LRUKReplacer :=
  ((((((((LRUKReplacer.mk0 4 2).RecordAccess 9).RecordAccess 0).RecordAccess 1).RecordAccess 0).RecordAccess 1).RecordAccess 0).SetEvictable 0 true).SetEvictable 1 true

/-- Witness for `evict_chooses_max_distance` at a concrete input. -/
theorem evict_chooses_max_distance_witness :
    c2State.WF ∧
    ((hasEvictable c2State.node_store = true →
      ∃ f node s1, c2State.Evict = Except.ok (some f, s1) ∧
        (f, node) ∈ c2State.node_store ∧ node.is_evictable = true ∧
        (∀ e ∈ c2State.node_store, e.2.is_evictable = true →
          distLE (kDist c2State.k c2State.current_timestamp e.2)
                 (kDist c2State.k c2State.current_timestamp node)) ∧
        s1.node_store = aerase c2State.node_store f ∧
        alookup s1.node_store f = none ∧
        s1.curr_size = c2State.curr_size - 1) ∧
    (hasEvictable c2State.node_store = false →
      c2State.Evict = Except.ok (none, c2State))) :=
  ⟨by decide, evict_chooses_max_distance c2State (by decide)⟩

end BusTub
